import Mathlib

/-!
# Verification of the dynamic routing engine
  (FastAPI_Server/core: graph.py, pathfinding.py, route_planner.py)

Shallow embedding of the routing core and proofs about it.

Modelling conventions:
* Python `float` values are modelled as exact rationals (`ℚ`); the single
  infinite sentinel `float('inf')` is modelled with `WithTop ℚ` where it can
  actually arise.  Decimal literals such as `0.3` are read as exact rationals.
* Python dictionaries are modelled as association lists in insertion order
  (`lookupA` finds the first binding, `setAssoc` overwrites it in place,
  matching CPython's order-preserving dicts).
* `heapq` heaps are modelled as bags from which `popMinBy` removes a minimal
  element under the same lexicographic tuple order Python uses.
* A spot where the Python code would raise an exception is modelled by an
  `Option`/`none` result.
* `time.time()` is modelled by an explicit `now : ℚ` argument; all reads of
  the clock during one call are identified.
* `math.exp` is modelled by an explicit function argument `E : ℚ → ℚ`;
  the theorems below assume of it only what the specification uses
  (positivity, strict monotonicity), which the real exponential satisfies.
-/

set_option maxHeartbeats 3200000
set_option maxRecDepth 4000

/- Batteries marks the `Rat` field operations `@[irreducible]`, which stops
the `decide` evaluator from computing with concrete rationals; restore the
default reducibility for this development (the kernel is unaffected). -/
attribute [local semireducible] Rat.add Rat.sub Rat.mul Rat.inv Rat.ofScientific

/-! ## Association lists (Python dict, in insertion order) -/

/-- First binding of `k`, like `d[k]`/`d.get(k)` on an insertion-ordered dict. -/
def lookupA {κ β : Type _} [DecidableEq κ] : List (κ × β) → κ → Option β
  | [], _ => none
  | (k, v) :: rest, k' => if k = k' then some v else lookupA rest k'

/-- `d[k] = v`: overwrite the first binding in place, else append. -/
def setAssoc {κ β : Type _} [DecidableEq κ] : List (κ × β) → κ → β → List (κ × β)
  | [], k, v => [(k, v)]
  | (k', v') :: rest, k, v =>
    if k' = k then (k, v) :: rest else (k', v') :: setAssoc rest k v

/-- `del d[k]`: remove the first binding of `k`. -/
def delAssoc {κ β : Type _} [DecidableEq κ] : List (κ × β) → κ → List (κ × β)
  | [], _ => []
  | (k', v') :: rest, k => if k' = k then rest else (k', v') :: delAssoc rest k

theorem lookupA_setAssoc_self {κ β : Type _} [DecidableEq κ] (l : List (κ × β)) (k : κ) (v : β) :
    lookupA (setAssoc l k v) k = some v := by
  induction l with
  | nil => simp [setAssoc, lookupA]
  | cons p rest ih =>
    obtain ⟨k', v'⟩ := p
    by_cases h : k' = k
    · simp [setAssoc, h, lookupA]
    · simp [setAssoc, h, lookupA, ih]

theorem lookupA_setAssoc_ne {κ β : Type _} [DecidableEq κ] (l : List (κ × β)) (k k' : κ) (v : β)
    (h : k ≠ k') : lookupA (setAssoc l k v) k' = lookupA l k' := by
  induction l with
  | nil => simp [setAssoc, lookupA, h]
  | cons p rest ih =>
    obtain ⟨k₀, v₀⟩ := p
    by_cases h₀ : k₀ = k
    · subst h₀
      simp [setAssoc, lookupA, h]
    · simp [setAssoc, h₀, lookupA, ih]

/-! ## Minimum extraction from a bag (models `heapq.heappop`)

`heapq` pops a least element of the heap under the tuple order; ties between
*equal* tuples are unobservable, so removing the first occurrence of the least
value is a faithful model. -/

/-- The least element of `l` under the strict comparison `lt`
(first occurrence among equals). -/
def minBy {α : Type _} (lt : α → α → Bool) : List α → Option α
  | [] => none
  | x :: xs => some (xs.foldl (fun best y => if lt y best then y else best) x)

/-- Remove the first occurrence of `a`. -/
def eraseFirst {α : Type _} [DecidableEq α] : List α → α → List α
  | [], _ => []
  | x :: xs, a => if x = a then xs else x :: eraseFirst xs a

/-- Pop a minimal element (under `lt`) together with the remaining bag. -/
def popMinBy {α : Type _} [DecidableEq α] (lt : α → α → Bool) (l : List α) :
    Option (α × List α) :=
  match minBy lt l with
  | none => none
  | some m => some (m, eraseFirst l m)

theorem foldlMin_mem {α : Type _} (lt : α → α → Bool) (xs : List α) (x : α) :
    xs.foldl (fun best y => if lt y best then y else best) x ∈ x :: xs := by
  induction xs generalizing x with
  | nil => simp
  | cons y ys ih =>
    simp only [List.foldl_cons]
    by_cases h : lt y x
    · simp only [h, if_true]
      rcases List.mem_cons.mp (ih y) with h' | h'
      · rw [h']; simp
      · simp [h']
    · simp only [h]
      rw [if_neg (by simp [h])]
      rcases List.mem_cons.mp (ih x) with h' | h'
      · rw [h']; simp
      · simp [h']

theorem foldlMin_min {α : Type _} (lt : α → α → Bool)
    (hasym : ∀ a b, lt a b = true → lt b a = false)
    (htrans : ∀ a b c, lt a b = true → lt b c = true → lt a c = true)
    (htotal : ∀ a b, lt a b = false → lt b a = false → ∀ c, lt a c = lt b c)
    (xs : List α) (x : α) :
    ∀ y ∈ x :: xs, lt y (xs.foldl (fun best y => if lt y best then y else best) x) = false := by
  induction xs generalizing x with
  | nil =>
    intro y hy
    simp at hy
    subst hy
    cases hxy : lt y y with
    | false => simpa using hxy
    | true => simpa using hasym y y hxy
  | cons z zs ih =>
    intro y hy
    simp only [List.foldl_cons]
    by_cases hzx : lt z x
    · simp only [hzx, if_true]
      rcases List.mem_cons.mp hy with h | h
      · subst h
        have hzm := ih z z (List.mem_cons_self z zs)
        cases hym : lt y (zs.foldl (fun best y => if lt y best then y else best) z) with
        | false => rfl
        | true =>
          have := htrans z y _ hzx hym
          rw [hzm] at this
          cases this
      · exact ih z y h
    · have hzx' : lt z x = false := by simpa using hzx
      rw [if_neg (by simp [hzx'])]
      rcases List.mem_cons.mp hy with h | h
      · subst h
        exact ih y y (List.mem_cons_self y zs)
      · rcases List.mem_cons.mp h with h' | h'
        · subst h'
          have hxm := ih x x (List.mem_cons_self x zs)
          cases hxz : lt x y with
          | false =>
            have := htotal y x hzx' hxz (zs.foldl (fun best y => if lt y best then y else best) x)
            rw [this, hxm]
          | true =>
            cases hym : lt y (zs.foldl (fun best y => if lt y best then y else best) x) with
            | false => rfl
            | true =>
              have := htrans x y _ hxz hym
              rw [hxm] at this
              cases this
        · exact ih x y (by simp [h'])

theorem minBy_mem {α : Type _} (lt : α → α → Bool) (l : List α) (m : α)
    (h : minBy lt l = some m) : m ∈ l := by
  cases l with
  | nil => simp [minBy] at h
  | cons x xs =>
    simp only [minBy, Option.some.injEq] at h
    exact h ▸ foldlMin_mem lt xs x

theorem minBy_min {α : Type _} (lt : α → α → Bool)
    (hasym : ∀ a b, lt a b = true → lt b a = false)
    (htrans : ∀ a b c, lt a b = true → lt b c = true → lt a c = true)
    (htotal : ∀ a b, lt a b = false → lt b a = false → ∀ c, lt a c = lt b c)
    (l : List α) (m : α) (h : minBy lt l = some m) :
    ∀ x ∈ l, lt x m = false := by
  cases l with
  | nil => simp [minBy] at h
  | cons x xs =>
    simp only [minBy, Option.some.injEq] at h
    exact h ▸ foldlMin_min lt hasym htrans htotal xs x

theorem eraseFirst_length {α : Type _} [DecidableEq α] (l : List α) (a : α) (h : a ∈ l) :
    (eraseFirst l a).length + 1 = l.length := by
  induction l with
  | nil => simp at h
  | cons x xs ih =>
    by_cases hx : x = a
    · simp [eraseFirst, hx]
    · have : a ∈ xs := by
        rcases List.mem_cons.mp h with h' | h'
        · exact absurd h'.symm hx
        · exact h'
      simp [eraseFirst, hx, ih this]

theorem eraseFirst_subset {α : Type _} [DecidableEq α] (l : List α) (a : α) :
    eraseFirst l a ⊆ l := by
  induction l with
  | nil => simp [eraseFirst]
  | cons x xs ih =>
    by_cases hx : x = a
    · simp only [eraseFirst, if_pos hx]
      exact List.subset_cons_self x xs
    · simp only [eraseFirst, if_neg hx]
      exact List.cons_subset_cons x ih

theorem mem_eraseFirst_of_ne {α : Type _} [DecidableEq α] (l : List α) (a b : α)
    (hne : b ≠ a) (h : b ∈ l) : b ∈ eraseFirst l a := by
  induction l with
  | nil => simp at h
  | cons x xs ih =>
    by_cases hx : x = a
    · simp only [eraseFirst, if_pos hx]
      rcases List.mem_cons.mp h with h' | h'
      · exact absurd (h' ▸ hx) hne
      · exact h'
    · simp only [eraseFirst, if_neg hx]
      rcases List.mem_cons.mp h with h' | h'
      · exact h' ▸ List.mem_cons_self x _
      · exact List.mem_cons_of_mem x (ih h')

theorem popMinBy_spec {α : Type _} [DecidableEq α] (lt : α → α → Bool) (l : List α)
    (m : α) (rest : List α) (h : popMinBy lt l = some (m, rest)) :
    m ∈ l ∧ rest = eraseFirst l m := by
  unfold popMinBy at h
  cases hmin : minBy lt l with
  | none => rw [hmin] at h; simp at h
  | some m' =>
    rw [hmin] at h
    simp only [Option.some.injEq, Prod.mk.injEq] at h
    obtain ⟨h1, h2⟩ := h
    subst h1
    exact ⟨minBy_mem lt l _ hmin, h2.symm⟩

theorem popMinBy_none {α : Type _} [DecidableEq α] (lt : α → α → Bool) (l : List α)
    (h : popMinBy lt l = none) : l = [] := by
  cases l with
  | nil => rfl
  | cons x xs => simp [popMinBy, minBy] at h

/-! ## Orders used by the Python heaps -/

/-- Python string comparison: lexicographic on code points. -/
def strLtB : List Char → List Char → Bool
  | [], [] => false
  | [], _ :: _ => true
  | _ :: _, [] => false
  | c :: cs, d :: ds =>
    if c.toNat < d.toNat then true
    else if c.toNat = d.toNat then strLtB cs ds
    else false

/-- Order on Dijkstra's heap entries `(distance, node)`:
Python tuple comparison `(float, str)`. -/
def ltQS (a b : ℚ × String) : Bool :=
  if a.1 < b.1 then true
  else if a.1 = b.1 then strLtB a.2.data b.2.data
  else false

/-- Python list-of-strings comparison (lexicographic, elementwise). -/
def listStrLtB : List String → List String → Bool
  | [], [] => false
  | [], _ :: _ => true
  | _ :: _, [] => false
  | s :: ss, t :: ts =>
    if strLtB s.data t.data then true
    else if s = t then listStrLtB ss ts
    else false

/-- Order on Yen's candidate heap entries `(cost, path)`. -/
def ltWP (a b : WithTop ℚ × List String) : Bool :=
  if a.1 < b.1 then true
  else if a.1 = b.1 then listStrLtB a.2 b.2
  else false

/-! ## The graph (graph.py, class Graph)

`Graph.adj` is the adjacency dict `{node: [(neighbor, weight, info)]}` (the
`info` component is never read by the algorithms and is dropped from the
adjacency model; it is kept in the edge map), `Graph.nodes` the node set
(modelled as a duplicate-free insertion list; only membership is observed),
and `Graph.edges` the edge dict keyed by `(from, to)`. -/

/-- The edge payload: the stored weight plus the `length` / `current_congestion`
keys of `edge_data` read by `_calculate_path_details`. -/
structure EdgeInfo where
  weight : ℚ
  length : ℚ
  congestion : ℚ
deriving DecidableEq, Repr

structure Graph where
  adj : List (String × List (String × ℚ))
  nodes : List String
  edges : List ((String × String) × EdgeInfo)
deriving DecidableEq, Repr

def Graph.empty : Graph := ⟨[], [], []⟩

/-- `set.add` on the node list. -/
def insertNode (l : List String) (n : String) : List String :=
  if n ∈ l then l else l ++ [n]

/-- `Graph.add_edge(from, to, weight, edge_data)`. -/
def Graph.add_edge (g : Graph) (f t : String) (w len cong : ℚ) : Graph :=
  let nodes := insertNode (insertNode g.nodes f) t
  let info : EdgeInfo := ⟨w, len, cong⟩
  let bucket := (lookupA g.adj f).getD []
  { adj := setAssoc g.adj f (bucket ++ [(t, w)]),
    nodes := nodes,
    edges := setAssoc g.edges (f, t) info }

/-- Build a graph by a sequence of `add_edge` calls. -/
def Graph.ofEdges (l : List (String × String × ℚ × ℚ × ℚ)) : Graph :=
  l.foldl (fun g e => g.add_edge e.1 e.2.1 e.2.2.1 e.2.2.2.1 e.2.2.2.2) Graph.empty

/-- `Graph.get_neighbors`. -/
def Graph.nbrs (g : Graph) (n : String) : List (String × ℚ) :=
  (lookupA g.adj n).getD []

/-- `Graph.get_edge_weight`. -/
def Graph.get_edge_weight (g : Graph) (f t : String) : Option ℚ :=
  (lookupA g.edges (f, t)).map EdgeInfo.weight

/-- There is an adjacency entry `u → v` with weight `w`. -/
def AdjEdge (g : Graph) (u v : String) (w : ℚ) : Prop :=
  (v, w) ∈ g.nbrs u

instance (g : Graph) (u v : String) (w : ℚ) : Decidable (AdjEdge g u v w) := by
  unfold AdjEdge; infer_instance

/-- Well-formedness enjoyed by every graph built through `add_edge`:
adjacency targets are registered nodes, buckets are per-node and free of
parallel edges, and the adjacency agrees with the edge dict.
(`add_edge` on a repeated `(from, to)` pair would leave a duplicate in the
adjacency while overwriting the dict entry; such graphs are excluded, as the
specification requires.) -/
def Graph.WF (g : Graph) : Prop :=
  (∀ p ∈ g.adj, p.1 ∈ g.nodes) ∧
  (∀ p ∈ g.adj, ∀ q ∈ p.2, q.1 ∈ g.nodes) ∧
  (g.adj.map Prod.fst).Nodup ∧
  (∀ p ∈ g.adj, (p.2.map Prod.fst).Nodup) ∧
  (∀ p ∈ g.adj, ∀ q ∈ p.2, g.get_edge_weight p.1 q.1 = some q.2) ∧
  (∀ e ∈ g.edges, (e.1.2, e.2.weight) ∈ g.nbrs e.1.1)

instance (g : Graph) : Decidable g.WF := by
  unfold Graph.WF; infer_instance

/-- All adjacency weights are non-negative (spec §3: `weight ≥ 0`). -/
def Graph.NonnegW (g : Graph) : Prop :=
  ∀ p ∈ g.adj, ∀ q ∈ p.2, 0 ≤ q.2

instance (g : Graph) : Decidable g.NonnegW := by
  unfold Graph.NonnegW; infer_instance

/-- Edge-respecting reachability avoiding `blocked` directed edges. -/
inductive Reach (g : Graph) (blocked : List (String × String)) : String → String → Prop
  | refl (a : String) : Reach g blocked a a
  | step {a b c : String} {w : ℚ} :
      Reach g blocked a b → AdjEdge g b c w → (b, c) ∉ blocked → Reach g blocked a c

/-! ## Dijkstra (pathfinding.py, class Dijkstra)

`shortest_path` and `shortest_path_with_blocked_edges` are the same
character-for-character except that the latter first skips blocked edges in
the relaxation loop; both are modelled by `dijkstraCore`, the former with
`blocked = []` (for which the extra skip is vacuous).

The unbounded `while pq:` loop is modelled with explicit fuel; the fuel
`totalAdj g + 2` passed by `dijkstraCore` is proved sufficient below
(`dloop` pops one entry per iteration, and at most `1 + totalAdj` entries are
ever pushed), so the fuel-exhaustion branch is unreachable. -/

def distOf (dist : List (String × ℚ)) (v : String) : WithTop ℚ :=
  match lookupA dist v with
  | some d => (d : WithTop ℚ)
  | none => ⊤

structure DState where
  dist : List (String × ℚ)
  prev : List (String × String)
  pq : List (ℚ × String)
deriving Repr

/-- One iteration of `for neighbor, weight, _ in neighbors: ...`. -/
def relax (blocked : List (String × String)) (u : String) (d : ℚ)
    (visited : List String) (st : DState) (nb : String × ℚ) : DState :=
  if (u, nb.1) ∈ blocked then st
  else if nb.1 ∈ visited then st
  else
    let nd := d + nb.2
    if (nd : WithTop ℚ) < distOf st.dist nb.1 then
      { dist := setAssoc st.dist nb.1 nd,
        prev := setAssoc st.prev nb.1 u,
        pq := st.pq ++ [(nd, nb.1)] }
    else st

def relaxAll (blocked : List (String × String)) (u : String) (d : ℚ)
    (visited : List String) (st : DState) (nbs : List (String × ℚ)) : DState :=
  nbs.foldl (relax blocked u d visited) st

/-- The `while pq:` loop; returns the final `dist` and `prev` maps. -/
def dloop (g : Graph) (blocked : List (String × String)) (endN : String) :
    Nat → List String → DState → List (String × ℚ) × List (String × String)
  | 0, _, st => (st.dist, st.prev)
  | fuel + 1, visited, st =>
    match popMinBy ltQS st.pq with
    | none => (st.dist, st.prev)
    | some ((d, u), pq') =>
      if u ∈ visited then dloop g blocked endN fuel visited { st with pq := pq' }
      else if u = endN then (st.dist, st.prev)
      else dloop g blocked endN fuel (u :: visited)
        (relaxAll blocked u d (u :: visited) { st with pq := pq' } (g.nbrs u))

/-- Path reconstruction (`while current is not None: ...`), fuel-bounded;
the fuel passed by `dijkstraCore` is proved sufficient below. -/
def rebuild (prev : List (String × String)) (start : String) :
    Nat → String → List String → Option (List String)
  | 0, _, _ => none
  | fuel + 1, cur, acc =>
    match lookupA prev cur with
    | none => some (cur :: acc)
    | some p =>
      if p = start then some (start :: cur :: acc)
      else rebuild prev start fuel p (cur :: acc)

def totalAdj (g : Graph) : Nat := (g.adj.map (fun p => p.2.length)).sum

/-- Common body of `Dijkstra.shortest_path` and
`Dijkstra.shortest_path_with_blocked_edges`.  The Python pair
`(None, float('inf'))` is modelled as `none`, and `(path, w)` as
`some (path, w)`; the code can only reach the final return with a finite
`dist[end]` (proved below), so no information is lost. -/
def dijkstraCore (g : Graph) (start endN : String) (blocked : List (String × String)) :
    Option (List String × ℚ) :=
  if start ∉ g.nodes ∨ endN ∉ g.nodes then none
  else if start = endN then some ([start], 0)
  else
    let fin := dloop g blocked endN (totalAdj g + 2) [] ⟨[(start, 0)], [], [(0, start)]⟩
    match lookupA fin.2 endN with
    | none => none
    | some _ =>
      match rebuild fin.2 start (fin.2.length + 1) endN [] with
      | none => none
      | some path =>
        if path.head? = some start then
          match lookupA fin.1 endN with
          | some d => some (path, d)
          | none => none
        else none

/-- `Dijkstra.shortest_path`. -/
def shortest_path (g : Graph) (start endN : String) : Option (List String × ℚ) :=
  dijkstraCore g start endN []

/-- `Dijkstra.shortest_path_with_blocked_edges`. -/
def shortest_path_blocked (g : Graph) (start endN : String)
    (blocked : List (String × String)) : Option (List String × ℚ) :=
  dijkstraCore g start endN blocked

/-- `YensKShortestPaths._calculate_path_cost`: total weight of a node
sequence, `float('inf')` (= `⊤`) as soon as an edge is missing. -/
def pathCostAux (g : Graph) : List String → WithTop ℚ
  | a :: b :: rest =>
    (match g.get_edge_weight a b with
     | none => (⊤ : WithTop ℚ)
     | some w => (w : WithTop ℚ)) + pathCostAux g (b :: rest)
  | _ => 0

def calculate_path_cost (g : Graph) (path : List String) : WithTop ℚ :=
  if path.length < 2 then 0 else pathCostAux g path

/-! ## Yen's algorithm (pathfinding.py, class YensKShortestPaths)

Costs are `WithTop ℚ`: `_calculate_path_cost` returns `float('inf')` on a
missing edge, and that value flows into candidate costs.  The one place the
Python code can raise — `root_path_cost - graph.get_edge_weight(...)` when
`get_edge_weight` returns `None` (a `TypeError`) — is modelled by `none`. -/

/-- Python equality between a `(path, cost)` tuple and a `(cost, path)` tuple:
tuples compare componentwise and `list == float` / `float == list` are both
`False` in Python, so this test never succeeds.  It models the dead check
`(total_path, total_cost) not in B`, where `B` holds `(cost, path)` pairs. -/
def tupleEqSwapped (_ : List String × WithTop ℚ) (_ : WithTop ℚ × List String) : Bool :=
  false

/-- The blocked-edge set gathered for spur index `i`:
`{(spur_node, path[i+1]) | (path, _) ∈ A, len(path) > i+1, path[:i+1] = root}`. -/
def yenBlocked (A : List (List String × WithTop ℚ)) (i : Nat) (spur : String)
    (root : List String) : List (String × String) :=
  A.foldl
    (fun acc pa =>
      if i + 1 < pa.1.length then
        if pa.1.take (i + 1) = root then acc ++ [(spur, pa.1.getD (i + 1) "")] else acc
      else acc)
    []

/-- One iteration of `for i in range(len(prev_path) - 1): ...`, threading the
candidate heap `B`. -/
def yenSpur (g : Graph) (endN : String) (A : List (List String × WithTop ℚ))
    (prev_path : List String) (B : List (WithTop ℚ × List String)) (i : Nat) :
    Option (List (WithTop ℚ × List String)) :=
  let spur_node := prev_path.getD i ""
  let root_path := prev_path.take (i + 1)
  let root_path_cost := calculate_path_cost g root_path
  let blocked := yenBlocked A i spur_node root_path
  match shortest_path_blocked g spur_node endN blocked with
  | none => some B
  | some (spur_path, spur_cost) =>
    let total_path := root_path.dropLast ++ spur_path
    let base : Option (WithTop ℚ) :=
      if 1 < root_path.length then
        match g.get_edge_weight (root_path.getD (root_path.length - 2) "")
            (root_path.getD (root_path.length - 1) "") with
        | none => none
        | some w => some (WithTop.map (fun c => c - w) root_path_cost)
      else some 0
    match base with
    | none => none
    | some b =>
      let total_cost := b + (spur_cost : WithTop ℚ)
      if B.any (tupleEqSwapped (total_path, total_cost)) ∨ (total_path, total_cost) ∈ A
      then some B
      else some (B ++ [(total_cost, total_path)])

/-- The `for _ in range(1, k)` loop of `k_shortest_paths`. -/
def yenLoop (g : Graph) (endN : String) (k : Nat) :
    Nat → List (List String × WithTop ℚ) → List (WithTop ℚ × List String) →
    Option (List (List String × WithTop ℚ))
  | 0, A, _ => some A
  | r + 1, A, B =>
    if k ≤ A.length then some A
    else
      match A.getLast? with
      | none => some A
      | some pa =>
        match (List.range (pa.1.length - 1)).foldlM (yenSpur g endN A pa.1) B with
        | none => none
        | some B' =>
          if B' = [] then some A
          else
            match popMinBy ltWP B' with
            | none => some A
            | some (cp, B'') => yenLoop g endN k r (A ++ [(cp.2, cp.1)]) B''

/-- `YensKShortestPaths.k_shortest_paths` (`none` models an uncaught Python
exception, which in fact cannot occur — see `k_shortest_paths_isSome`). -/
def k_shortest_paths (g : Graph) (start endN : String) (k : Nat) :
    Option (List (List String × WithTop ℚ)) :=
  match shortest_path g start endN with
  | none => some []
  | some pw => yenLoop g endN k (k - 1) [(pw.1, (pw.2 : WithTop ℚ))] []

/-! ## Softmax (pathfinding.py, class SoftmaxSelector)

`math.exp` appears as the argument `E`; the theorems assume of it only
positivity and strict monotonicity.  A `none` result models the
`ZeroDivisionError` Python raises when the sum of the (float) exponentials
is zero. -/

/-- `math.exp(u / t)` for a utility `u = -cost`; `float('inf')` cost gives
utility `-inf` and `exp(-inf) = 0.0`. -/
def expUtil (E : ℚ → ℚ) (t : ℚ) (cost : WithTop ℚ) : ℚ :=
  WithTop.recTopCoe 0 (fun c => E (-c / t)) cost

/-- `if temperature <= 0: temperature = 1e-10` (the float `1e-10` is read as
the exact rational `10 ^ (-10)`). -/
def clampTemp (temperature : ℚ) : ℚ :=
  if temperature ≤ 0 then 1 / 10 ^ 10 else temperature

/-- `SoftmaxSelector.calculate_probabilities`. -/
def calculate_probabilities (E : ℚ → ℚ) (paths : List (List String × WithTop ℚ))
    (temperature : ℚ) : Option (List ℚ) :=
  if paths = [] then some []
  else
    let t := clampTemp temperature
    let exps := paths.map (fun p => expUtil E t p.2)
    let s := exps.sum
    if s = 0 then none else some (exps.map (· / s))

/-! ## Caches (route_planner.py, classes GraphCache and PathCache) -/

structure GraphCache where
  graph : Option Graph
  last_update : ℚ
  cache_ttl : ℚ
  cache_hits : Nat
  cache_misses : Nat
deriving DecidableEq, Repr

/-- `GraphCache.get_graph`; the external `Graph.from_database()` call is
modelled by the `fresh` argument. -/
def GraphCache.get_graph (gc : GraphCache) (fresh : Graph) (now : ℚ) :
    Graph × GraphCache :=
  let rebuilt : GraphCache :=
    { gc with graph := some fresh, last_update := now, cache_misses := gc.cache_misses + 1 }
  match gc.graph with
  | none => (fresh, rebuilt)
  | some g =>
    if gc.cache_ttl < now - gc.last_update then (fresh, rebuilt)
    else (g, { gc with cache_hits := gc.cache_hits + 1 })

/-- `GraphCache.invalidate_cache`. -/
def GraphCache.invalidate_cache (gc : GraphCache) : GraphCache :=
  { gc with graph := none, last_update := 0 }

structure CacheEntry (α : Type _) where
  data : α
  cached_at : ℚ
deriving DecidableEq, Repr

structure PathCache (α : Type _) where
  cache : List (String × CacheEntry α)
  max_size : Nat
  ttl : ℚ
  hits : Nat
  misses : Nat
deriving DecidableEq, Repr

/-- `PathCache._make_key`. -/
def make_key (start endN vehicle_type : String) : String :=
  start ++ "_" ++ endN ++ "_" ++ vehicle_type

/-- `PathCache.get_path`. -/
def PathCache.get_path {α : Type _} (pc : PathCache α) (start endN vehicle_type : String)
    (now : ℚ) : Option α × PathCache α :=
  let key := make_key start endN vehicle_type
  match lookupA pc.cache key with
  | some item =>
    if now - item.cached_at < pc.ttl then
      (some item.data, { pc with hits := pc.hits + 1 })
    else
      (none, { pc with cache := delAssoc pc.cache key, misses := pc.misses + 1 })
  | none => (none, { pc with misses := pc.misses + 1 })

/-- `<` on entries by insertion timestamp (the comparison `min` performs). -/
def entLt {α : Type _} (p q : String × CacheEntry α) : Bool :=
  p.2.cached_at < q.2.cached_at

/-- `min(self._cache.keys(), key=lambda k: self._cache[k]['cached_at'])`:
the first key (in dict order) with the least insertion timestamp. -/
def oldestKey {α : Type _} (cache : List (String × CacheEntry α)) : Option String :=
  match cache with
  | [] => none
  | x :: xs => some ((xs.foldl (fun best p => if entLt p best then p else best) x).1)

/-- `PathCache.set_path`; `none` models the `ValueError` of `min()` on an
empty sequence (possible only when `max_size = 0`). -/
def PathCache.set_path {α : Type _} (pc : PathCache α) (start endN vehicle_type : String)
    (data : α) (now : ℚ) : Option (PathCache α) :=
  let key := make_key start endN vehicle_type
  if pc.max_size ≤ pc.cache.length then
    match oldestKey pc.cache with
    | none => none
    | some ok =>
      some { pc with cache := setAssoc (delAssoc pc.cache ok) key ⟨data, now⟩ }
  else
    some { pc with cache := setAssoc pc.cache key ⟨data, now⟩ }

/-! ## RoutePlanner (route_planner.py)

Result dictionaries are modelled by structures in which a Python key that is
*absent* from the dictionary is an `none`-valued `Option` field
(`all_paths` distinguishes the absent key from the key set to `None`). -/

structure PathDetail where
  path : List String
  weight : WithTop ℚ
  distance : ℚ
  duration : ℚ
  congestion : ℚ
  probability : ℚ
  rank : Nat
  label : Option String
  comprehensive_score : Option ℚ
deriving DecidableEq, Repr

structure RouteDict where
  path : List String
  weight : WithTop ℚ
  distance : ℚ
  duration : ℚ
  congestion : ℚ
  message : String
  cached : Option Bool
  processing_time : Option ℚ
  alternative_paths : Option Nat
  probabilities : Option (List ℚ)
  all_paths : Option (Option (List PathDetail))
deriving DecidableEq, Repr

/-- `RoutePlanner._calculate_path_details`: returns
`(total_distance, total_duration, total_congestion)`. -/
def calc_path_details (g : Graph) (path : List String) : ℚ × ℚ × ℚ :=
  if path.length < 2 then (0, 0, 0)
  else
    let pairs := path.zip path.tail
    let dist := (pairs.map (fun ab =>
      match lookupA g.edges ab with
      | some e => e.length
      | none => 0)).sum
    let cong := (pairs.map (fun ab =>
      match lookupA g.edges ab with
      | some e => e.congestion
      | none => 0)).sum
    let dur := (pairs.map (fun ab => (g.get_edge_weight ab.1 ab.2).getD 0)).sum
    (dist, dur, cong)

/-- `min(l, key=f)` (first minimum, in iteration order), as an index. -/
def pyMinIdxBy {α : Type _} (f : α → ℚ) (l : List α) : Option Nat :=
  match l.enum with
  | [] => none
  | x :: xs =>
    some ((xs.foldl (fun best p => if f p.2 < f best.2 then p else best) x).1)

/-- `max(l, key=f)` (first maximum), as an index. -/
def pyMaxIdxBy {α : Type _} (f : α → ℚ) (l : List α) : Option Nat :=
  match l.enum with
  | [] => none
  | x :: xs =>
    some ((xs.foldl (fun best p => if f p.2 > f best.2 then p else best) x).1)

/-- `min(l, key=f)` (first minimum), as an element. -/
def pyMinBy {α : Type _} (f : α → ℚ) (l : List α) : Option α :=
  match l with
  | [] => none
  | x :: xs => some (xs.foldl (fun best p => if f p < f best then p else best) x)

def listMaxQ : List ℚ → ℚ
  | [] => 0
  | x :: xs => xs.foldl max x

def listMinQ : List ℚ → ℚ
  | [] => 0
  | x :: xs => xs.foldl min x

/-- The composite score assigned to every candidate (the body of
`for p in paths_with_details:` in `plan_route`). -/
def comprehensiveScore (max_congestion avg_duration avg_congestion min_duration : ℚ)
    (d : PathDetail) : ℚ :=
  let time_score := d.duration * 1
  let congestion_penalty :=
    if 0 < max_congestion then
      let congestion_weight : ℚ :=
        if avg_congestion * 2 < d.congestion then 3
        else if avg_congestion * (3/2) < d.congestion then 2
        else if avg_congestion < d.congestion then 12/10
        else 6/10
      let congestion_ratio := d.congestion / max_congestion
      congestion_ratio ^ 3 * avg_duration * congestion_weight
    else 0
  let path_length_penalty := ((d.path.length : ℚ) - 2) * (3/10)
  let time_proximity_bonus :=
    if 0 < min_duration ∧ d.duration ≤ min_duration * (115/100) then
      -(min_duration * (15/100))
    else 0
  let congestion_bonus :=
    if 0 < avg_congestion ∧ d.congestion < avg_congestion * (8/10) then
      -(avg_congestion * (2/10))
    else 0
  time_score + congestion_penalty + path_length_penalty + time_proximity_bonus +
    congestion_bonus

/-- The configuration constants of route_planner.py. -/
def K_SHORTEST_PATHS : Nat := 25

def SOFTMAX_TEMPERATURE : ℚ := 8 / 100

/-- Label pass + scoring pass + selection of the normal-vehicle branch.
The four `min`/`max` label assignments mutate the candidate dicts in place;
a dict receiving several labels keeps the last one assigned
(probability ≻ congestion ≻ duration ≻ distance). -/
def labelAndScore (details : List PathDetail) : List PathDetail :=
  if details = [] then details
  else
    let idxDist := pyMinIdxBy (fun d => d.distance) details
    let idxDur := pyMinIdxBy (fun d => d.duration) details
    let idxCong := pyMinIdxBy (fun d => d.congestion) details
    let idxProb := pyMaxIdxBy (fun d => d.probability) details
    let labeled := details.enum.map (fun p =>
      let d := p.2
      let lab := if some p.1 = idxProb then some "推荐路径"
        else if some p.1 = idxCong then some "最畅通"
        else if some p.1 = idxDur then some "最快时间"
        else if some p.1 = idxDist then some "最短距离"
        else d.label
      { d with label := lab })
    let max_congestion := listMaxQ (labeled.map (fun d => d.congestion))
    let n : ℚ := labeled.length
    let avg_duration := (labeled.map (fun d => d.duration)).sum / n
    let avg_congestion := (labeled.map (fun d => d.congestion)).sum / n
    let min_duration := listMinQ (labeled.map (fun d => d.duration))
    -- `max_duration` is also computed by the source and never read
    labeled.map (fun d =>
      let s := comprehensiveScore max_congestion avg_duration avg_congestion min_duration d
      { d with comprehensive_score := some s })

/-- `RoutePlanner.plan_route`.  `fresh` stands for the graph
`Graph.from_database()` would build, `now` for `time.time()`; the planner's
two caches are passed and returned explicitly.  A `none` result models an
uncaught Python exception. -/
def plan_route (E : ℚ → ℚ) (fresh : Graph) (now : ℚ) (gc : GraphCache)
    (pc : PathCache RouteDict) (start endN vehicle_type : String) :
    Option (RouteDict × GraphCache × PathCache RouteDict) :=
  let got := pc.get_path start endN vehicle_type now
  match got.1 with
  | some d =>
    -- cache hit: the cached dict is annotated in place and returned
    let ap := match d.all_paths with
      | none => some none
      | some x => some x
    let r := { d with cached := some true, processing_time := some (now - now), all_paths := ap }
    let key := make_key start endN vehicle_type
    let pch := got.2
    let newCache := match lookupA pch.cache key with
      | some e => setAssoc pch.cache key { e with data := r }
      | none => pch.cache
    let pc2 := { pch with cache := newCache }
    some (r, gc, pc2)
  | none =>
    let pc1 := got.2
    let gg := gc.get_graph fresh now
    let graph := gg.1
    let gc1 := gg.2
    if graph.nodes = [] then
      some (⟨[], 0, 0, 0, 0, "路网数据为空，请先导入路网数据", some false,
             none, none, none, none⟩, gc1, pc1)
    else if start ∉ graph.nodes then
      some (⟨[], 0, 0, 0, 0, "起始节点 " ++ start ++ " 不存在", some false,
             none, none, none, none⟩, gc1, pc1)
    else if endN ∉ graph.nodes then
      some (⟨[], 0, 0, 0, 0, "目标节点 " ++ endN ++ " 不存在", some false,
             none, none, none, none⟩, gc1, pc1)
    else if start = endN then
      let r : RouteDict := ⟨[start], 0, 0, 0, 0, "起始节点和目标节点相同", some false,
             none, none, none, none⟩
      match pc1.set_path start endN vehicle_type r now with
      | none => none
      | some pc2 => some (r, gc1, pc2)
    else if vehicle_type = "emergency" then
      match shortest_path graph start endN with
      | none =>
        let r : RouteDict := ⟨[], 0, 0, 0, 0, "无法找到路径", some false,
             none, none, none, none⟩
        match pc1.set_path start endN vehicle_type r now with
        | none => none
        | some pc2 => some (r, gc1, pc2)
      | some pw =>
        let det := calc_path_details graph pw.1
        some (⟨pw.1, (pw.2 : WithTop ℚ), det.1, det.2.1, det.2.2, "特殊车辆最短路径",
               none, some (now - now), none, none, none⟩, gc1, pc1)
    else
      match k_shortest_paths graph start endN K_SHORTEST_PATHS with
      | none => none
      | some k_paths =>
        if k_paths = [] then
          let r : RouteDict := ⟨[], 0, 0, 0, 0, "无法找到路径", some false,
               none, none, none, none⟩
          match pc1.set_path start endN vehicle_type r now with
          | none => none
          | some pc2 => some (r, gc1, pc2)
        else
          match calculate_probabilities E k_paths SOFTMAX_TEMPERATURE with
          | none => none
          | some probabilities =>
            match k_paths.enum.mapM (fun p =>
                (probabilities.get? p.1).map (fun pr =>
                  let det := calc_path_details graph p.2.1
                  (⟨p.2.1, p.2.2, det.1, det.2.1, det.2.2, pr, p.1 + 1,
                    none, none⟩ : PathDetail))) with
            | none => none
            | some details =>
              let scored := labelAndScore details
              match pyMinBy (fun d => d.comprehensive_score.getD 0) scored with
              | none => none
              | some sel =>
                let r : RouteDict :=
                  ⟨sel.path, sel.weight, sel.distance, sel.duration, sel.congestion,
                   "路径规划成功", some false, some (now - now),
                   some k_paths.length, some probabilities, some (some scored)⟩
                match pc1.set_path start endN vehicle_type r now with
                | none => none
                | some pc2 => some (r, gc1, pc2)

/-! ## C7: the cache key -/

/-- The string has no underscore (the key separator). -/
def noUnderscore (s : String) : Prop := '_' ∉ s.data

instance (s : String) : Decidable (noUnderscore s) := by
  unfold noUnderscore; infer_instance

theorem splitSep {a a' r r' : List Char} (ha : '_' ∉ a) (ha' : '_' ∉ a')
    (h : a ++ '_' :: r = a' ++ '_' :: r') : a = a' ∧ r = r' := by
  induction a generalizing a' with
  | nil =>
    cases a' with
    | nil => simpa using h
    | cons c cs =>
      simp only [List.nil_append, List.cons_append, List.cons.injEq] at h
      exact absurd (h.1 ▸ List.mem_cons_self c cs) ha'
  | cons c cs ih =>
    cases a' with
    | nil =>
      simp only [List.cons_append, List.nil_append, List.cons.injEq] at h
      exact absurd (h.1 ▸ List.mem_cons_self c cs) ha
    | cons c' cs' =>
      simp only [List.cons_append, List.cons.injEq] at h
      obtain ⟨hc, hrest⟩ := h
      have := ih (fun hm => ha (List.mem_cons_of_mem c hm))
        (fun hm => ha' (hc ▸ List.mem_cons_of_mem c' hm)) hrest
      exact ⟨by rw [hc, this.1], this.2⟩

/-- C7 (counterexample): `_make_key` is not injective on raw triples — the
triples `("a_b", "c", "d")` and `("a", "b_c", "d")` are distinct yet produce
the same cache key `"a_b_c_d"`. -/
theorem make_key_not_injective :
    make_key "a_b" "c" "d" = make_key "a" "b_c" "d" ∧
      (("a_b", "c", "d") : String × String × String) ≠ ("a", "b_c", "d") := by
  constructor
  · rfl
  · decide

/-- C7 (amended): on triples whose components contain no underscore
(the key separator), `_make_key` is injective, so no two such queries ever
collide on a cache key. -/
theorem make_key_injective_on_underscore_free
    (s₁ e₁ v₁ s₂ e₂ v₂ : String)
    (hs₁ : noUnderscore s₁) (he₁ : noUnderscore e₁)
    (hs₂ : noUnderscore s₂) (he₂ : noUnderscore e₂)
    (h : make_key s₁ e₁ v₁ = make_key s₂ e₂ v₂) :
    s₁ = s₂ ∧ e₁ = e₂ ∧ v₁ = v₂ := by
  have hd : s₁.data ++ '_' :: (e₁.data ++ '_' :: v₁.data) =
      s₂.data ++ '_' :: (e₂.data ++ '_' :: v₂.data) := by
    have := congrArg String.data h
    simpa [make_key, String.data_append] using this
  obtain ⟨h₁, h₂⟩ := splitSep hs₁ hs₂ hd
  obtain ⟨h₃, h₄⟩ := splitSep he₁ he₂ h₂
  refine ⟨?_, ?_, ?_⟩
  · exact String.ext h₁
  · exact String.ext h₃
  · exact String.ext h₄

theorem make_key_injective_witness :
    noUnderscore "A" ∧ noUnderscore "B" ∧ noUnderscore "C" ∧ noUnderscore "D" ∧
      (make_key "A" "B" "x" = make_key "C" "D" "x" → ("A" : String) = "C" ∧ ("B" : String) = "D" ∧ ("x" : String) = "x") :=
  ⟨by decide, by decide, by decide, by decide,
   fun h => make_key_injective_on_underscore_free "A" "B" "x" "C" "D" "x"
     (by decide) (by decide) (by decide) (by decide) h⟩

/-! ## C8: the graph cache -/

/-- After any `get_graph` call the cached snapshot is exactly the returned
graph. -/
theorem get_graph_stores (gc : GraphCache) (fresh : Graph) (t : ℚ) :
    (gc.get_graph fresh t).2.graph = some (gc.get_graph fresh t).1 := by
  unfold GraphCache.get_graph
  cases hg : gc.graph with
  | none => simp
  | some g =>
    by_cases hc : gc.cache_ttl < t - gc.last_update <;> simp [hc]

/-- A `get_graph` call on a state holding a fresh-enough snapshot is a pure
cache hit. -/
theorem get_graph_hit (s : GraphCache) (g fresh : Graph) (now : ℚ)
    (hg : s.graph = some g) (hage : now - s.last_update ≤ s.cache_ttl) :
    s.get_graph fresh now = (g, { s with cache_hits := s.cache_hits + 1 }) := by
  unfold GraphCache.get_graph
  rw [hg]
  simp only
  rw [if_neg (not_lt.mpr hage)]

/-- C8: a `get_graph` call whose state holds a non-null graph of age at most
the TTL returns that same snapshot, leaves the snapshot and timestamp
untouched and increments the hit counter — in particular a second call within
the TTL window returns exactly what the first call returned; and after
`invalidate_cache` the next `get_graph` always rebuilds from the external
source (returns the fresh graph and counts a miss). -/
theorem graph_cache_contract (gc : GraphCache) (fresh₁ fresh₂ : Graph) (t₁ t₂ : ℚ)
    (hage : t₂ - (gc.get_graph fresh₁ t₁).2.last_update ≤
      (gc.get_graph fresh₁ t₁).2.cache_ttl) :
    ((gc.get_graph fresh₁ t₁).2.get_graph fresh₂ t₂ =
      ((gc.get_graph fresh₁ t₁).1,
       { (gc.get_graph fresh₁ t₁).2 with cache_hits := (gc.get_graph fresh₁ t₁).2.cache_hits + 1 })) ∧
    (∀ (gc' : GraphCache) (fresh : Graph) (now : ℚ),
      gc'.invalidate_cache.get_graph fresh now =
        (fresh, { gc' with graph := some fresh, last_update := now, cache_misses := gc'.cache_misses + 1 })) := by
  constructor
  · exact get_graph_hit _ _ _ _ (get_graph_stores gc fresh₁ t₁) hage
  · intro gc' fresh now
    unfold GraphCache.invalidate_cache GraphCache.get_graph
    simp

theorem graph_cache_contract_witness :
    (5 : ℚ) - ((⟨none, 0, 300, 0, 0⟩ : GraphCache).get_graph Graph.empty 1).2.last_update ≤
      ((⟨none, 0, 300, 0, 0⟩ : GraphCache).get_graph Graph.empty 1).2.cache_ttl ∧
    ((⟨none, 0, 300, 0, 0⟩ : GraphCache).get_graph Graph.empty 1).2.get_graph Graph.empty 5 =
      (((⟨none, 0, 300, 0, 0⟩ : GraphCache).get_graph Graph.empty 1).1,
       { ((⟨none, 0, 300, 0, 0⟩ : GraphCache).get_graph Graph.empty 1).2 with cache_hits := ((⟨none, 0, 300, 0, 0⟩ : GraphCache).get_graph Graph.empty 1).2.cache_hits + 1 }) :=
  ⟨by decide,
   (graph_cache_contract ⟨none, 0, 300, 0, 0⟩ Graph.empty Graph.empty 1 5 (by decide)).1⟩

/-! ## C6: the path cache -/

theorem lookupA_of_nodup_mem {κ β : Type _} [DecidableEq κ] (l : List (κ × β)) (k : κ)
    (v : β) (hnd : (l.map Prod.fst).Nodup) (hm : (k, v) ∈ l) : lookupA l k = some v := by
  induction l with
  | nil => simp at hm
  | cons p rest ih =>
    simp only [List.map_cons, List.nodup_cons] at hnd
    rcases List.mem_cons.mp hm with h | h
    · subst h
      simp [lookupA]
    · have hne : p.1 ≠ k := by
        intro hk
        exact hnd.1 (hk ▸ (List.mem_map.mpr ⟨(k, v), h, rfl⟩))
      obtain ⟨k₀, v₀⟩ := p
      simp only at hne
      simp [lookupA, hne, ih hnd.2 h]

theorem lookupA_some_mem {κ β : Type _} [DecidableEq κ] (l : List (κ × β)) (k : κ)
    (v : β) (h : lookupA l k = some v) : (k, v) ∈ l := by
  induction l with
  | nil => simp [lookupA] at h
  | cons p rest ih =>
    obtain ⟨k₀, v₀⟩ := p
    by_cases hk : k₀ = k
    · subst hk
      simp only [lookupA, if_true, eq_self_iff_true, Option.some.injEq] at h
      simp [h]
    · simp only [lookupA, if_neg hk] at h
      exact List.mem_cons_of_mem _ (ih h)

theorem lookupA_delAssoc_self {κ β : Type _} [DecidableEq κ] (l : List (κ × β)) (k : κ)
    (hnd : (l.map Prod.fst).Nodup) : lookupA (delAssoc l k) k = none := by
  induction l with
  | nil => simp [delAssoc, lookupA]
  | cons p rest ih =>
    obtain ⟨k₀, v₀⟩ := p
    simp only [List.map_cons, List.nodup_cons] at hnd
    by_cases h : k₀ = k
    · subst h
      simp only [delAssoc, if_pos rfl]
      cases hl : lookupA rest k₀ with
      | none => exact hl
      | some v =>
        exact absurd (List.mem_map.mpr ⟨(k₀, v), lookupA_some_mem rest k₀ v hl, rfl⟩) hnd.1
    · simp [delAssoc, h, lookupA, ih hnd.2]

theorem length_setAssoc_present {κ β : Type _} [DecidableEq κ] (l : List (κ × β)) (k : κ)
    (v : β) (h : lookupA l k ≠ none) : (setAssoc l k v).length = l.length := by
  induction l with
  | nil => simp [lookupA] at h
  | cons p rest ih =>
    obtain ⟨k₀, v₀⟩ := p
    by_cases hk : k₀ = k
    · simp [setAssoc, hk]
    · simp only [lookupA, if_neg hk] at h
      simp [setAssoc, hk, ih h]

theorem length_setAssoc_absent {κ β : Type _} [DecidableEq κ] (l : List (κ × β)) (k : κ)
    (v : β) (h : lookupA l k = none) : (setAssoc l k v).length = l.length + 1 := by
  induction l with
  | nil => simp [setAssoc]
  | cons p rest ih =>
    obtain ⟨k₀, v₀⟩ := p
    by_cases hk : k₀ = k
    · simp [lookupA, hk] at h
    · simp only [lookupA, if_neg hk] at h
      simp [setAssoc, hk, ih h]

theorem length_delAssoc_present {κ β : Type _} [DecidableEq κ] (l : List (κ × β)) (k : κ)
    (h : lookupA l k ≠ none) : (delAssoc l k).length + 1 = l.length := by
  induction l with
  | nil => simp [lookupA] at h
  | cons p rest ih =>
    obtain ⟨k₀, v₀⟩ := p
    by_cases hk : k₀ = k
    · simp [delAssoc, hk]
    · simp only [lookupA, if_neg hk] at h
      simp [delAssoc, hk, ih h]

theorem entLt_asym {α : Type _} (a b : String × CacheEntry α) :
    entLt a b = true → entLt b a = false := by
  simp only [entLt, decide_eq_true_eq, decide_eq_false_iff_not]
  exact fun h => not_lt.mpr h.le

theorem entLt_trans {α : Type _} (a b c : String × CacheEntry α) :
    entLt a b = true → entLt b c = true → entLt a c = true := by
  simp only [entLt, decide_eq_true_eq]
  exact fun h₁ h₂ => h₁.trans h₂

theorem entLt_total {α : Type _} (a b : String × CacheEntry α) :
    entLt a b = false → entLt b a = false → ∀ c, entLt a c = entLt b c := by
  simp only [entLt, decide_eq_false_iff_not, not_lt]
  intro h₁ h₂ c
  have : a.2.cached_at = b.2.cached_at := le_antisymm h₂ h₁
  rw [this]

/-- For a non-empty cache, `oldestKey` names an entry carrying the least
insertion timestamp (the first such entry in dict order). -/
theorem oldestKey_spec {α : Type _} (cache : List (String × CacheEntry α))
    (h : cache ≠ []) :
    ∃ ok eo, oldestKey cache = some ok ∧ (ok, eo) ∈ cache ∧
      ∀ p ∈ cache, eo.cached_at ≤ p.2.cached_at := by
  cases cache with
  | nil => exact absurd rfl h
  | cons x xs =>
    set best := xs.foldl (fun best p => if entLt p best then p else best) x with hbest
    refine ⟨best.1, best.2, rfl, ?_, ?_⟩
    · simpa using foldlMin_mem entLt xs x
    · intro p hp
      have := foldlMin_min entLt entLt_asym entLt_trans entLt_total xs x p hp
      rw [← hbest] at this
      simpa [entLt, not_lt] using this

/-- C6: `get_path` returns the stored result for a key exactly when the entry
is younger than the TTL (counting a hit); an expired entry is removed and a
miss is reported; `set_path` at capacity (for a positive capacity) evicts
exactly the entry with the least insertion timestamp before inserting; and a
`set_path` on a cache within capacity keeps it within capacity and makes the
new entry immediately visible. -/
theorem path_cache_contract {α : Type _} (pc : PathCache α) (s e vt : String)
    (d : α) (now : ℚ) :
    (∀ it, lookupA pc.cache (make_key s e vt) = some it →
      ((now - it.cached_at < pc.ttl →
         pc.get_path s e vt now = (some it.data, { pc with hits := pc.hits + 1 })) ∧
       (pc.ttl ≤ now - it.cached_at →
         pc.get_path s e vt now =
           (none, { pc with cache := delAssoc pc.cache (make_key s e vt), misses := pc.misses + 1 })))) ∧
    (lookupA pc.cache (make_key s e vt) = none →
      pc.get_path s e vt now = (none, { pc with misses := pc.misses + 1 })) ∧
    ((pc.cache.map Prod.fst).Nodup → ∀ it,
      lookupA pc.cache (make_key s e vt) = some it → pc.ttl ≤ now - it.cached_at →
      lookupA (pc.get_path s e vt now).2.cache (make_key s e vt) = none) ∧
    (1 ≤ pc.max_size → pc.max_size ≤ pc.cache.length →
      ∃ ok eo, oldestKey pc.cache = some ok ∧ (ok, eo) ∈ pc.cache ∧
        (∀ p ∈ pc.cache, eo.cached_at ≤ p.2.cached_at) ∧
        pc.set_path s e vt d now =
          some { pc with cache := setAssoc (delAssoc pc.cache ok) (make_key s e vt) ⟨d, now⟩ }) ∧
    ((pc.cache.map Prod.fst).Nodup → 1 ≤ pc.max_size → pc.cache.length ≤ pc.max_size →
      ∃ pc', pc.set_path s e vt d now = some pc' ∧ pc'.cache.length ≤ pc.max_size ∧
        lookupA pc'.cache (make_key s e vt) = some ⟨d, now⟩) := by
  refine ⟨?_, ?_, ?_, ?_, ?_⟩
  · intro it hit
    constructor
    · intro hfresh
      simp only [PathCache.get_path, hit]
      rw [if_pos hfresh]
    · intro hexp
      simp only [PathCache.get_path, hit]
      rw [if_neg (not_lt.mpr hexp)]
  · intro hmiss
    simp only [PathCache.get_path, hmiss]
  · intro hnd it hit hexp
    simp only [PathCache.get_path, hit]
    rw [if_neg (not_lt.mpr hexp)]
    exact lookupA_delAssoc_self pc.cache (make_key s e vt) hnd
  · intro hpos hfull
    have hne : pc.cache ≠ [] := by
      intro h0
      rw [h0] at hfull
      simp at hfull
      omega
    obtain ⟨ok, eo, hok, hmem, hmin⟩ := oldestKey_spec pc.cache hne
    refine ⟨ok, eo, hok, hmem, hmin, ?_⟩
    unfold PathCache.set_path
    rw [if_pos hfull, hok]
  · intro hnd hpos hlen
    by_cases hfull : pc.max_size ≤ pc.cache.length
    · have heq : pc.cache.length = pc.max_size := le_antisymm hlen hfull
      have hne : pc.cache ≠ [] := by
        intro h0
        rw [h0] at heq
        simp at heq
        omega
      obtain ⟨ok, eo, hok, hmem, hmin⟩ := oldestKey_spec pc.cache hne
      refine ⟨_, by unfold PathCache.set_path; rw [if_pos hfull, hok], ?_, ?_⟩
      · simp only
        have hkdel : lookupA pc.cache ok ≠ none := by
          rw [lookupA_of_nodup_mem pc.cache ok eo hnd hmem]
          simp
        have hdel := length_delAssoc_present pc.cache ok hkdel
        by_cases hkey : lookupA (delAssoc pc.cache ok) (make_key s e vt) = none
        · rw [length_setAssoc_absent _ _ _ hkey]
          omega
        · rw [length_setAssoc_present _ _ _ hkey]
          omega
      · simp only
        exact lookupA_setAssoc_self _ _ _
    · refine ⟨_, by unfold PathCache.set_path; rw [if_neg hfull], ?_, ?_⟩
      · simp only
        by_cases hkey : lookupA pc.cache (make_key s e vt) = none
        · rw [length_setAssoc_absent _ _ _ hkey]
          omega
        · rw [length_setAssoc_present _ _ _ hkey]
          omega
      · simp only
        exact lookupA_setAssoc_self _ _ _

theorem path_cache_contract_witness :
    ∃ pc', PathCache.set_path (⟨[("k", ⟨0, 1⟩)], 1, 600, 0, 0⟩ : PathCache ℚ) "a" "b" "n" 7 5 =
        some pc' ∧ pc'.cache.length ≤ 1 ∧ lookupA pc'.cache (make_key "a" "b" "n") = some ⟨7, 5⟩ :=
  (path_cache_contract (⟨[("k", ⟨0, 1⟩)], 1, 600, 0, 0⟩ : PathCache ℚ) "a" "b" "n" 7 5).2.2.2.2
    (by decide) (by decide) (by decide)

/-! ## C5: softmax probabilities -/

theorem sum_map_div (l : List ℚ) (s : ℚ) : (l.map (· / s)).sum = l.sum / s := by
  induction l with
  | nil => simp
  | cons x xs ih => simp [ih, add_div]

theorem clampTemp_pos (τ : ℚ) : 0 < clampTemp τ := by
  unfold clampTemp
  by_cases h : τ ≤ 0
  · rw [if_pos h]; norm_num
  · rw [if_neg h]; exact lt_of_not_le h

theorem calculate_probabilities_eq (E : ℚ → ℚ) (paths : List (List String × WithTop ℚ))
    (τ : ℚ) (hne : paths ≠ [])
    (hs : (paths.map (fun p => expUtil E (clampTemp τ) p.2)).sum ≠ 0) :
    calculate_probabilities E paths τ =
      some ((paths.map (fun p => expUtil E (clampTemp τ) p.2)).map
        (· / (paths.map (fun p => expUtil E (clampTemp τ) p.2)).sum)) := by
  simp only [calculate_probabilities]
  rw [if_neg hne, if_neg hs]

/-- C5: on a non-empty path list with (finite) float costs the softmax
assignment succeeds — the clamped temperature is positive and the divisor is
non-zero, so no division by zero occurs —, returns one probability per path,
the probabilities sum to 1, and a path of strictly greater cost receives a
strictly smaller probability.  (`math.exp` enters as any function `E` that is
positive and strictly monotone, the two properties the specification uses.) -/
theorem calculate_probabilities_contract (E : ℚ → ℚ) (hpos : ∀ x, 0 < E x)
    (hmono : StrictMono E) (paths : List (List String × WithTop ℚ)) (τ : ℚ)
    (hne : paths ≠ []) (hfin : ∀ p ∈ paths, p.2 ≠ ⊤) :
    0 < clampTemp τ ∧
    ∃ probs, calculate_probabilities E paths τ = some probs ∧
      probs.length = paths.length ∧ probs.sum = 1 ∧
      ∀ (i j : Nat) (ci cj : List String × WithTop ℚ) (pi pj : ℚ),
        paths[i]? = some ci → paths[j]? = some cj →
        probs[i]? = some pi → probs[j]? = some pj → ci.2 < cj.2 → pj < pi := by
  refine ⟨clampTemp_pos τ, ?_⟩
  have htpos : 0 < clampTemp τ := clampTemp_pos τ
  have hepos : ∀ x ∈ paths.map (fun p => expUtil E (clampTemp τ) p.2), 0 < x := by
    intro x hx
    obtain ⟨p, hp, hpx⟩ := List.mem_map.mp hx
    cases hc : p.2 with
    | top => exact absurd hc (hfin p hp)
    | coe c =>
      rw [hc] at hpx
      exact hpx ▸ hpos _
  have hsum : 0 < (paths.map (fun p => expUtil E (clampTemp τ) p.2)).sum :=
    List.sum_pos _ hepos (by simpa using hne)
  have hs0 : (paths.map (fun p => expUtil E (clampTemp τ) p.2)).sum ≠ 0 := ne_of_gt hsum
  refine ⟨_, calculate_probabilities_eq E paths τ hne hs0, by simp, ?_, ?_⟩
  · rw [sum_map_div]
    exact div_self hs0
  · intro i j ci cj pi pj hci hcj hpi hpj hlt
    have hfi : ci.2 ≠ ⊤ := hfin ci (List.getElem?_mem hci)
    have hfj : cj.2 ≠ ⊤ := hfin cj (List.getElem?_mem hcj)
    obtain ⟨a, ha⟩ := Option.ne_none_iff_exists'.mp hfi
    obtain ⟨b, hb⟩ := Option.ne_none_iff_exists'.mp hfj
    rw [List.getElem?_map, List.getElem?_map, hci] at hpi
    rw [List.getElem?_map, List.getElem?_map, hcj] at hpj
    simp only [Option.map_some'] at hpi hpj
    have hpi' := (Option.some.inj hpi).symm
    have hpj' := (Option.some.inj hpj).symm
    have hea : expUtil E (clampTemp τ) ci.2 = E (-a / clampTemp τ) := by rw [ha]; rfl
    have heb : expUtil E (clampTemp τ) cj.2 = E (-b / clampTemp τ) := by rw [hb]; rfl
    have hab : a < b := by
      rw [ha, hb] at hlt
      exact WithTop.coe_lt_coe.mp hlt
    have hu : -b / clampTemp τ < -a / clampTemp τ :=
      (div_lt_div_iff_of_pos_right htpos).mpr (neg_lt_neg hab)
    have hE : E (-b / clampTemp τ) < E (-a / clampTemp τ) := hmono hu
    rw [hpi', hpj', hea, heb]
    exact (div_lt_div_iff_of_pos_right hsum).mpr hE

/-- A positive, strictly monotone stand-in for `exp` used by the witness. -/
def expLike (x : ℚ) : ℚ := if 0 ≤ x then x + 1 else 1 / (1 - x)

theorem expLike_pos (x : ℚ) : 0 < expLike x := by
  unfold expLike
  by_cases h : 0 ≤ x
  · rw [if_pos h]; linarith
  · rw [if_neg h]
    have : (0 : ℚ) < 1 - x := by linarith [lt_of_not_le h]
    positivity

theorem expLike_mono : StrictMono expLike := by
  intro x y hxy
  unfold expLike
  by_cases hx : 0 ≤ x
  · rw [if_pos hx, if_pos (le_of_lt (lt_of_le_of_lt hx hxy))]
    linarith
  · rw [if_neg hx]
    have hx' : x < 0 := lt_of_not_le hx
    have h1x : (0 : ℚ) < 1 - x := by linarith
    by_cases hy : 0 ≤ y
    · rw [if_pos hy]
      have : 1 / (1 - x) < 1 := by
        rw [div_lt_one h1x]
        linarith
      linarith
    · rw [if_neg hy]
      have h1y : (0 : ℚ) < 1 - y := by linarith [lt_of_not_le hy]
      rw [div_lt_div_iff₀ h1x h1y]
      linarith

theorem calculate_probabilities_contract_witness :
    0 < clampTemp (-1) ∧
    ∃ probs, calculate_probabilities expLike [(["a"], (3 : ℚ)), (["b"], (5 : ℚ))] (-1) = some probs ∧
      probs.length = 2 ∧ probs.sum = 1 ∧
      ∀ (i j : Nat) (ci cj : List String × WithTop ℚ) (pi pj : ℚ),
        ([(["a"], ((3 : ℚ) : WithTop ℚ)), (["b"], ((5 : ℚ) : WithTop ℚ))][i]? = some ci) →
        ([(["a"], ((3 : ℚ) : WithTop ℚ)), (["b"], ((5 : ℚ) : WithTop ℚ))][j]? = some cj) →
        probs[i]? = some pi → probs[j]? = some pj → ci.2 < cj.2 → pj < pi :=
  calculate_probabilities_contract expLike expLike_pos expLike_mono
    [(["a"], (3 : ℚ)), (["b"], (5 : ℚ))] (-1) (by decide) (by decide)

/-! ## C1, C2: Yen's algorithm at a concrete failing input

`gYen` is the graph  s→a→t (weight 1 each), a→b→s (weight 1 each),
s→c→t (weight 10 each).  Its three "shortest" paths as computed by the code
are `[s,a,t]` (2), `[s,c,t]` (20) and `[s,a,b,s,c,t]` (reported 22): the
third revisits `s`, and its reported weight undercounts the true edge sum 23
by the weight of the root edge `s→a`. -/

def gYen : Graph := Graph.ofEdges
  [("s", "a", 1, 0, 0), ("a", "t", 1, 0, 0), ("a", "b", 1, 0, 0),
   ("b", "s", 1, 0, 0), ("s", "c", 10, 0, 0), ("c", "t", 10, 0, 0)]

/-- C1: `k_shortest_paths` does not return only loopless paths — on `gYen`
with `K = 3` the third returned path repeats the node `s` (the spur search
blocks only edges, never the root-path nodes, so a spur path may re-enter
the root).  The graph is well-formed with non-negative weights and the run
raises no exception. -/
theorem k_shortest_paths_returns_non_loopless_path :
    gYen.WF ∧ gYen.NonnegW ∧
    k_shortest_paths gYen "s" "t" 3 =
      some [(["s", "a", "t"], 2), (["s", "c", "t"], 20),
            (["s", "a", "b", "s", "c", "t"], 22)] ∧
    ¬ (["s", "a", "b", "s", "c", "t"] : List String).Nodup := by
  refine ⟨by decide, by decide, by decide, by decide⟩

/-- C2: the weight paired with a returned path does not always equal the sum
of the graph's edge weights along it — on `gYen` with `K = 3` the third path
is returned with weight 22 while its true edge-weight sum is 23: the splice
cost `cost(root) − weight(last root edge) + cost(spur)` undercounts, because
the spur path starts *at* the spur node and never contains the last root
edge, so nothing is double-counted. -/
theorem k_shortest_paths_weight_mismatch :
    k_shortest_paths gYen "s" "t" 3 =
      some [(["s", "a", "t"], 2), (["s", "c", "t"], 20),
            (["s", "a", "b", "s", "c", "t"], 22)] ∧
    calculate_path_cost gYen ["s", "a", "b", "s", "c", "t"] = ((23 : ℚ) : WithTop ℚ) ∧
    ((22 : ℚ) : WithTop ℚ) ≠ ((23 : ℚ) : WithTop ℚ) := by
  refine ⟨by decide, by decide, by decide⟩

/-! ## C9: `plan_route` can raise

With the shipped constants (`SOFTMAX_TEMPERATURE = 0.08`) every candidate
cost of at least ≈ 59.7 drives `math.exp(-cost/τ)` below the smallest
positive double, so each exponential evaluates to exactly `0.0`, the softmax
divisor is `0.0`, and `plan_route` dies with `ZeroDivisionError`.  The graph
`gBig` (one edge A→B of weight 60, as a 1 km road at 60 km/h produces)
realises this: every utility is `exp(-750) = 0.0` in float arithmetic, which
the model expresses by instantiating the exponential argument with the
constant-zero function — the value the float `exp` actually takes at every
utility that occurs in this run. -/

def gBig : Graph := Graph.ofEdges [("A", "B", 60, 1, 0)]

/-- C9: `plan_route` raises on a reachable normal-vehicle query — with the
float value of `exp` at these utilities (`0.0`), the softmax division is a
division by zero, so the call does not return a result (`none` models the
uncaught `ZeroDivisionError`). -/
theorem plan_route_raises_on_softmax_underflow :
    plan_route (fun _ => 0) gBig 5 ⟨none, 0, 300, 0, 0⟩ ⟨[], 1000, 600, 0, 0⟩
      "A" "B" "normal" = none ∧
    gBig.WF ∧ gBig.NonnegW ∧ "A" ∈ gBig.nodes ∧ "B" ∈ gBig.nodes ∧
    shortest_path gBig "A" "B" = some (["A", "B"], 60) := by
  refine ⟨by decide, by decide, by decide, by decide, by decide, by decide⟩

/-! ## C10: which branches of `plan_route` write the path cache -/

theorem set_path_lookup {α : Type _} (pc : PathCache α) (s e vt : String) (d : α)
    (now : ℚ) (pc2 : PathCache α) (h : pc.set_path s e vt d now = some pc2) :
    lookupA pc2.cache (make_key s e vt) = some ⟨d, now⟩ := by
  unfold PathCache.set_path at h
  by_cases hc : pc.max_size ≤ pc.cache.length
  · rw [if_pos hc] at h
    cases hok : oldestKey pc.cache with
    | none => rw [hok] at h; cases h
    | some ok =>
      rw [hok] at h
      simp only [Option.some.injEq] at h
      rw [← h]
      exact lookupA_setAssoc_self _ _ _
  · rw [if_neg hc] at h
    simp only [Option.some.injEq] at h
    rw [← h]
    exact lookupA_setAssoc_self _ _ _

/-- C10: on a path-cache miss, `plan_route` writes its result back
asymmetrically.  The empty-network and node-not-found failures are returned
without touching the cache; a no-path failure is stored for the emergency
class and for every other class alike; and a successful emergency query is
returned without being stored, its dictionary carrying no `cached` key at
all (`cached = none`). -/
theorem plan_route_cache_write_asymmetry
    (E : ℚ → ℚ) (fresh : Graph) (now : ℚ) (gc : GraphCache)
    (pc : PathCache RouteDict) (start endN vt : String)
    (hmiss : (pc.get_path start endN vt now).1 = none) :
    (((gc.get_graph fresh now).1.nodes = []) →
      plan_route E fresh now gc pc start endN vt =
        some (⟨[], 0, 0, 0, 0, "路网数据为空，请先导入路网数据", some false, none, none, none, none⟩,
              (gc.get_graph fresh now).2, (pc.get_path start endN vt now).2)) ∧
    (((gc.get_graph fresh now).1.nodes ≠ []) → start ∉ (gc.get_graph fresh now).1.nodes →
      plan_route E fresh now gc pc start endN vt =
        some (⟨[], 0, 0, 0, 0, "起始节点 " ++ start ++ " 不存在", some false, none, none, none, none⟩,
              (gc.get_graph fresh now).2, (pc.get_path start endN vt now).2)) ∧
    (((gc.get_graph fresh now).1.nodes ≠ []) → start ∈ (gc.get_graph fresh now).1.nodes →
      endN ∉ (gc.get_graph fresh now).1.nodes →
      plan_route E fresh now gc pc start endN vt =
        some (⟨[], 0, 0, 0, 0, "目标节点 " ++ endN ++ " 不存在", some false, none, none, none, none⟩,
              (gc.get_graph fresh now).2, (pc.get_path start endN vt now).2)) ∧
    (((gc.get_graph fresh now).1.nodes ≠ []) → start ∈ (gc.get_graph fresh now).1.nodes →
      endN ∈ (gc.get_graph fresh now).1.nodes → start ≠ endN →
      shortest_path (gc.get_graph fresh now).1 start endN = none →
      ∀ pc2, (pc.get_path start endN vt now).2.set_path start endN vt
          ⟨[], 0, 0, 0, 0, "无法找到路径", some false, none, none, none, none⟩ now = some pc2 →
        (vt = "emergency" ∨ vt ≠ "emergency") →
        plan_route E fresh now gc pc start endN vt =
          some (⟨[], 0, 0, 0, 0, "无法找到路径", some false, none, none, none, none⟩,
                (gc.get_graph fresh now).2, pc2) ∧
          lookupA pc2.cache (make_key start endN vt) =
            some ⟨⟨[], 0, 0, 0, 0, "无法找到路径", some false, none, none, none, none⟩, now⟩) ∧
    (((gc.get_graph fresh now).1.nodes ≠ []) → start ∈ (gc.get_graph fresh now).1.nodes →
      endN ∈ (gc.get_graph fresh now).1.nodes → start ≠ endN → vt = "emergency" →
      ∀ pw, shortest_path (gc.get_graph fresh now).1 start endN = some pw →
      ∃ r, plan_route E fresh now gc pc start endN vt =
          some (r, (gc.get_graph fresh now).2, (pc.get_path start endN vt now).2) ∧
        r.cached = none ∧ r.path = pw.1 ∧ r.weight = (pw.2 : WithTop ℚ)) := by
  refine ⟨?_, ?_, ?_, ?_, ?_⟩
  · intro hempty
    simp only [plan_route, hmiss, hempty]
    rfl
  · intro hne hs
    simp only [plan_route, hmiss]
    rw [if_neg hne, if_pos hs]
  · intro hne hs he
    simp only [plan_route, hmiss]
    rw [if_neg hne, if_neg (by simpa using hs), if_pos he]
  · intro hne hs he hse hnopath pc2 hset _
    by_cases hvt : vt = "emergency"
    · simp only [plan_route, hmiss]
      rw [if_neg hne, if_neg (by simpa using hs), if_neg (by simpa using he),
        if_neg hse, if_pos hvt]
      rw [hvt] at hset ⊢
      rw [hnopath, hset]
      exact ⟨rfl, set_path_lookup _ _ _ _ _ _ _ hset⟩
    · simp only [plan_route, hmiss]
      rw [if_neg hne, if_neg (by simpa using hs), if_neg (by simpa using he),
        if_neg hse, if_neg hvt]
      have hk : k_shortest_paths (gc.get_graph fresh now).1 start endN K_SHORTEST_PATHS =
          some [] := by
        unfold k_shortest_paths
        rw [hnopath]
      rw [hk]
      simp only [if_pos rfl]
      rw [hset]
      exact ⟨rfl, set_path_lookup _ _ _ _ _ _ _ hset⟩
  · intro hne hs he hse hvt pw hpath
    refine ⟨⟨pw.1, (pw.2 : WithTop ℚ),
      (calc_path_details (gc.get_graph fresh now).1 pw.1).1,
      (calc_path_details (gc.get_graph fresh now).1 pw.1).2.1,
      (calc_path_details (gc.get_graph fresh now).1 pw.1).2.2,
      "特殊车辆最短路径", none, some (now - now), none, none, none⟩, ?_, rfl, rfl, rfl⟩
    simp only [plan_route, hmiss]
    rw [if_neg hne, if_neg (by simpa using hs), if_neg (by simpa using he),
      if_neg hse, if_pos hvt, hpath]

theorem plan_route_cache_write_asymmetry_witness :
    ∃ r, plan_route (fun _ => 1) gYen 5 ⟨none, 0, 300, 0, 0⟩ ⟨[], 1000, 600, 0, 0⟩
        "s" "t" "emergency" =
        some (r, ((⟨none, 0, 300, 0, 0⟩ : GraphCache).get_graph gYen 5).2,
              ((⟨[], 1000, 600, 0, 0⟩ : PathCache RouteDict).get_path "s" "t" "emergency" 5).2) ∧
      r.cached = none ∧ r.path = ["s", "a", "t"] ∧ r.weight = ((2 : ℚ) : WithTop ℚ) :=
  (plan_route_cache_write_asymmetry (fun _ => 1) gYen 5 ⟨none, 0, 300, 0, 0⟩
      ⟨[], 1000, 600, 0, 0⟩ "s" "t" "emergency" (by decide)).2.2.2.2
    (by decide) (by decide) (by decide) (by decide) rfl (["s", "a", "t"], 2) (by decide)

/-! ## C3, C4: Dijkstra — invariants

The loop invariant (`DInv`) tracks everything needed for the contract:
`dist`/`prev` consistency (each `prev` link is a graph edge whose weights
telescope in `dist`), well-ordering of `prev` along the visit order (so path
reconstruction terminates at `start`), exactness of the queue entries, and
reachability of every node with a finite tentative distance. -/

/-- The part of `l` strictly after the first occurrence of `a`. -/
def tailAfterFirst (a : String) : List String → List String
  | [] => []
  | x :: xs => if x = a then xs else tailAfterFirst a xs

theorem tailAfterFirst_subset (a : String) (l : List String) : tailAfterFirst a l ⊆ l := by
  induction l with
  | nil => simp [tailAfterFirst]
  | cons x xs ih =>
    by_cases hx : x = a
    · simp only [tailAfterFirst, if_pos hx]
      exact List.subset_cons_self x xs
    · simp only [tailAfterFirst, if_neg hx]
      exact ih.trans (List.subset_cons_self x xs)

theorem tailAfterFirst_cons_ne (a x : String) (l : List String) (h : x ≠ a) :
    tailAfterFirst a (x :: l) = tailAfterFirst a l := by
  simp [tailAfterFirst, h]

theorem tailAfterFirst_length_lt (a : String) (l : List String) (h : a ∈ l) :
    (tailAfterFirst a l).length < l.length := by
  induction l with
  | nil => simp at h
  | cons x xs ih =>
    by_cases hx : x = a
    · simp [tailAfterFirst, hx]
    · have : a ∈ xs := by
        rcases List.mem_cons.mp h with h' | h'
        · exact absurd h'.symm hx
        · exact h'
      simp only [tailAfterFirst, if_neg hx, List.length_cons]
      exact Nat.lt_succ_of_lt (ih this)

/-- Along a duplicate-free list, stepping to an element strictly after `a`
strictly shrinks the tail. -/
theorem tailAfterFirst_descent (a b : String) (l : List String) (hnd : l.Nodup)
    (hb : b ∈ tailAfterFirst a l) :
    (tailAfterFirst b l).length < (tailAfterFirst a l).length := by
  induction l with
  | nil => simp [tailAfterFirst] at hb
  | cons x xs ih =>
    rw [List.nodup_cons] at hnd
    by_cases hx : x = a
    · subst hx
      have h1 : tailAfterFirst x (x :: xs) = xs := by simp [tailAfterFirst]
      rw [h1] at hb ⊢
      have hbx : x ≠ b := fun h => hnd.1 (by rw [h]; exact hb)
      rw [tailAfterFirst_cons_ne b x xs hbx]
      exact tailAfterFirst_length_lt b xs hb
    · have h1 : tailAfterFirst a (x :: xs) = tailAfterFirst a xs :=
        tailAfterFirst_cons_ne a x xs hx
      rw [h1] at hb ⊢
      have hbmem : b ∈ xs := tailAfterFirst_subset a xs hb
      have hbx : x ≠ b := fun h => hnd.1 (by rw [h]; exact hbmem)
      rw [tailAfterFirst_cons_ne b x xs hbx]
      exact ih hnd.2 hb

/-! ### The termination potential -/

/-- Total length of the adjacency buckets of nodes not yet visited. -/
def outW (g : Graph) (visited : List String) : Nat :=
  ((g.adj.filter (fun p => !(decide (p.1 ∈ visited)))).map (fun p => p.2.length)).sum

theorem lookupA_eq_none_iff_keys {κ β : Type _} [DecidableEq κ] (l : List (κ × β)) (k : κ) :
    lookupA l k = none ↔ k ∉ l.map Prod.fst := by
  induction l with
  | nil => simp [lookupA]
  | cons p rest ih =>
    obtain ⟨k₀, v₀⟩ := p
    by_cases hk : k₀ = k
    · subst hk
      simp [lookupA]
    · simp [lookupA, hk, ih, Ne.symm hk]

theorem sum_map_le_of_sublist {α : Type _} (f : α → Nat) {l₁ l₂ : List α}
    (h : l₁.Sublist l₂) : (l₁.map f).sum ≤ (l₂.map f).sum := by
  induction h with
  | slnil => simp
  | cons x _ ih => simpa using le_trans ih (Nat.le_add_left _ _)
  | cons₂ x _ ih => simpa using ih

theorem filter_stronger_sublist {α : Type _} (p q : α → Bool) (l : List α)
    (h : ∀ x, p x = true → q x = true) : (l.filter p).Sublist (l.filter q) := by
  induction l with
  | nil => simp
  | cons x xs ih =>
    by_cases hp : p x
    · rw [List.filter_cons_of_pos hp, List.filter_cons_of_pos (h x hp)]
      exact ih.cons₂ x
    · rw [List.filter_cons_of_neg (by simpa using hp)]
      by_cases hq : q x
      · rw [List.filter_cons_of_pos hq]
        exact ih.cons x
      · rw [List.filter_cons_of_neg (by simpa using hq)]
        exact ih

theorem outW_le_totalAdj (g : Graph) (visited : List String) :
    outW g visited ≤ totalAdj g := by
  unfold outW totalAdj
  exact sum_map_le_of_sublist _ (List.filter_sublist _)

theorem outW_cons_aux (u : String) (visited : List String) (hu : u ∉ visited)
    (al : List (String × List (String × ℚ))) :
    ((al.filter (fun p => !(decide (p.1 ∈ u :: visited)))).map (fun p => p.2.length)).sum
        + ((lookupA al u).getD []).length
      ≤ ((al.filter (fun p => !(decide (p.1 ∈ visited)))).map (fun p => p.2.length)).sum := by
  induction al with
  | nil => simp [lookupA]
  | cons p rest ih =>
    obtain ⟨k, bucket⟩ := p
    by_cases hk : k = u
    · subst hk
      rw [List.filter_cons_of_neg (by simp)]
      rw [List.filter_cons_of_pos (by simpa using hu)]
      simp only [lookupA, eq_self_iff_true, if_true, Option.getD_some, List.map_cons,
        List.sum_cons]
      have hmono : ((rest.filter (fun p => !(decide (p.1 ∈ k :: visited)))).map
            (fun p => p.2.length)).sum
          ≤ ((rest.filter (fun p => !(decide (p.1 ∈ visited)))).map (fun p => p.2.length)).sum := by
        refine sum_map_le_of_sublist _ (filter_stronger_sublist _ _ _ ?_)
        intro x hx
        simp only [Bool.not_eq_true', decide_eq_false_iff_not] at hx ⊢
        exact fun hm => hx (List.mem_cons_of_mem _ hm)
      omega
    · simp only [lookupA, if_neg hk]
      by_cases hv : k ∈ visited
      · rw [List.filter_cons_of_neg (by simp [hv]), List.filter_cons_of_neg (by simp [hv])]
        exact ih
      · rw [List.filter_cons_of_pos (by simp [hv, Ne.symm (fun h => hk h.symm), hk]),
          List.filter_cons_of_pos (by simp [hv])]
        simp only [List.map_cons, List.sum_cons]
        omega

theorem outW_cons (g : Graph) (u : String) (visited : List String) (hu : u ∉ visited) :
    outW g (u :: visited) + (g.nbrs u).length ≤ outW g visited :=
  outW_cons_aux u visited hu g.adj

/-! ### The loop invariant -/

/-- Invariant of the Dijkstra loop state, relative to the not-yet-relaxed
frontier. -/
structure DInv (g : Graph) (blocked : List (String × String)) (start : String)
    (visited : List String) (st : DState) : Prop where
  dist_start : lookupA st.dist start = some 0
  prev_start : lookupA st.prev start = none
  prev_cons : ∀ v u, lookupA st.prev v = some u → v ≠ start ∧ u ∈ visited ∧
      ∃ w du, AdjEdge g u v w ∧ lookupA st.dist u = some du ∧
        lookupA st.dist v = some (du + w)
  dist_prev : ∀ v dv, lookupA st.dist v = some dv → v ≠ start →
      lookupA st.prev v ≠ none
  dist_nonneg : ∀ v dv, lookupA st.dist v = some dv → 0 ≤ dv
  pq_bound : ∀ e ∈ st.pq, 0 ≤ e.1 ∧ ∃ dv, lookupA st.dist e.2 = some dv ∧ dv ≤ e.1
  pq_exact : ∀ v dv, lookupA st.dist v = some dv → v ∉ visited → (dv, v) ∈ st.pq
  visited_dist : ∀ u ∈ visited, ∃ du, lookupA st.dist u = some du
  prev_order : ∀ v u, lookupA st.prev v = some u → v ∈ visited →
      u ∈ tailAfterFirst v visited
  visited_nodup : visited.Nodup
  dist_reach : ∀ v dv, lookupA st.dist v = some dv → Reach g blocked start v

/-- All popped/visited deviations finished relaxing: every non-blocked edge
out of a visited node has been given a finite tentative distance. -/
def Closed (g : Graph) (blocked : List (String × String)) (visited : List String)
    (st : DState) : Prop :=
  ∀ u ∈ visited, ∀ nb ∈ g.nbrs u, (u, nb.1) ∉ blocked →
    lookupA st.dist nb.1 ≠ none

theorem nonneg_nbrs (g : Graph) (hnn : g.NonnegW) (u : String) :
    ∀ nb ∈ g.nbrs u, 0 ≤ nb.2 := by
  intro nb hnb
  unfold Graph.nbrs at hnb
  cases hl : lookupA g.adj u with
  | none => rw [hl] at hnb; simp at hnb
  | some bucket =>
    rw [hl] at hnb
    simp only [Option.getD_some] at hnb
    exact hnn (u, bucket) (lookupA_some_mem _ _ _ hl) nb hnb

/-- One relaxation step preserves the invariant; moreover tentative distances
only decrease, distances of visited nodes are frozen, the relaxed target ends
with a finite distance (unless the edge is blocked), and the queue grows by at
most one entry. -/
theorem relax_spec (g : Graph) (blocked : List (String × String)) (start u : String)
    (d : ℚ) (visited' : List String) (st : DState) (nb : String × ℚ)
    (hinv : DInv g blocked start visited' st)
    (hu : u ∈ visited')
    (hd : lookupA st.dist u = some d)
    (hnb : AdjEdge g u nb.1 nb.2)
    (hw : 0 ≤ nb.2) :
    DInv g blocked start visited' (relax blocked u d visited' st nb) ∧
    (∀ v dv, lookupA st.dist v = some dv →
       ∃ dv', lookupA (relax blocked u d visited' st nb).dist v = some dv' ∧ dv' ≤ dv) ∧
    (∀ x ∈ visited', lookupA (relax blocked u d visited' st nb).dist x =
       lookupA st.dist x) ∧
    ((u, nb.1) ∉ blocked → lookupA (relax blocked u d visited' st nb).dist nb.1 ≠ none) ∧
    (relax blocked u d visited' st nb).pq.length ≤ st.pq.length + 1 := by
  have hd0 : 0 ≤ d := hinv.dist_nonneg u d hd
  unfold relax
  by_cases hbl : (u, nb.1) ∈ blocked
  · rw [if_pos hbl]
    exact ⟨hinv, fun v dv h => ⟨dv, h, le_refl dv⟩, fun x _ => rfl,
      fun hc => absurd hbl hc, Nat.le_succ _⟩
  · rw [if_neg hbl]
    by_cases hv : nb.1 ∈ visited'
    · rw [if_pos hv]
      refine ⟨hinv, fun v dv h => ⟨dv, h, le_refl dv⟩, fun x _ => rfl, fun _ => ?_,
        Nat.le_succ _⟩
      obtain ⟨dv, hdv⟩ := hinv.visited_dist nb.1 hv
      rw [hdv]
      simp
    · rw [if_neg hv]
      by_cases hlt : ((d + nb.2 : ℚ) : WithTop ℚ) < distOf st.dist nb.1
      · rw [if_pos hlt]
        have hvstart : nb.1 ≠ start := by
          intro h
          rw [h] at hlt
          unfold distOf at hlt
          rw [hinv.dist_start] at hlt
          have : (0 : ℚ) ≤ d + nb.2 := add_nonneg hd0 hw
          exact absurd (WithTop.coe_lt_coe.mp hlt) (not_lt.mpr this)
        have hufr : u ≠ nb.1 := fun h => hv (h ▸ hu)
        constructor
        · constructor
          · -- dist_start
            dsimp only
            rw [lookupA_setAssoc_ne _ _ _ _ hvstart]
            exact hinv.dist_start
          · -- prev_start
            dsimp only
            rw [lookupA_setAssoc_ne _ _ _ _ hvstart]
            exact hinv.prev_start
          · -- prev_cons
            dsimp only
            intro v u' hpv
            by_cases hveq : v = nb.1
            · subst hveq
              rw [lookupA_setAssoc_self] at hpv
              obtain rfl : u' = u := (Option.some.inj hpv).symm
              refine ⟨hvstart, hu, nb.2, d, hnb, ?_, ?_⟩
              · rw [lookupA_setAssoc_ne _ _ _ _ (Ne.symm hufr)]
                exact hd
              · rw [lookupA_setAssoc_self]
            · rw [lookupA_setAssoc_ne _ _ _ _ (fun h => hveq h.symm)] at hpv
              obtain ⟨h1, h2, w, du, h3, h4, h5⟩ := hinv.prev_cons v u' hpv
              have hu'ne : u' ≠ nb.1 := fun h => hv (h ▸ h2)
              refine ⟨h1, h2, w, du, h3, ?_, ?_⟩
              · rw [lookupA_setAssoc_ne _ _ _ _ (fun h => hu'ne h.symm)]
                exact h4
              · rw [lookupA_setAssoc_ne _ _ _ _ (fun h => hveq h.symm)]
                exact h5
          · -- dist_prev
            dsimp only
            intro v dv hdv hvs
            by_cases hveq : v = nb.1
            · subst hveq
              rw [lookupA_setAssoc_self]
              simp
            · rw [lookupA_setAssoc_ne _ _ _ _ (fun h => hveq h.symm)] at hdv ⊢
              exact hinv.dist_prev v dv hdv hvs
          · -- dist_nonneg
            dsimp only
            intro v dv hdv
            by_cases hveq : v = nb.1
            · subst hveq
              rw [lookupA_setAssoc_self] at hdv
              obtain rfl : d + nb.2 = dv := Option.some.inj hdv
              exact add_nonneg hd0 hw
            · rw [lookupA_setAssoc_ne _ _ _ _ (fun h => hveq h.symm)] at hdv
              exact hinv.dist_nonneg v dv hdv
          · -- pq_bound
            dsimp only
            intro e he
            rcases List.mem_append.mp he with he' | he'
            · obtain ⟨h1, dv, h2, h3⟩ := hinv.pq_bound e he'
              by_cases hveq : e.2 = nb.1
              · refine ⟨h1, d + nb.2, ?_, ?_⟩
                · rw [hveq, lookupA_setAssoc_self]
                · rw [hveq] at h2
                  unfold distOf at hlt
                  rw [h2] at hlt
                  exact le_trans (le_of_lt (WithTop.coe_lt_coe.mp hlt)) h3
              · refine ⟨h1, dv, ?_, h3⟩
                rw [lookupA_setAssoc_ne _ _ _ _ (fun h => hveq h.symm)]
                exact h2
            · simp only [List.mem_singleton] at he'
              subst he'
              exact ⟨add_nonneg hd0 hw, d + nb.2, lookupA_setAssoc_self _ _ _, le_refl _⟩
          · -- pq_exact
            dsimp only
            intro v dv hdv hvs
            by_cases hveq : v = nb.1
            · subst hveq
              rw [lookupA_setAssoc_self] at hdv
              obtain rfl : d + nb.2 = dv := Option.some.inj hdv
              exact List.mem_append.mpr (Or.inr (List.mem_singleton.mpr rfl))
            · rw [lookupA_setAssoc_ne _ _ _ _ (fun h => hveq h.symm)] at hdv
              exact List.mem_append.mpr (Or.inl (hinv.pq_exact v dv hdv hvs))
          · -- visited_dist
            dsimp only
            intro x hx
            have hxne : x ≠ nb.1 := fun h => hv (h ▸ hx)
            rw [lookupA_setAssoc_ne _ _ _ _ (fun h => hxne h.symm)]
            exact hinv.visited_dist x hx
          · -- prev_order
            dsimp only
            intro v u' hpv hvs
            by_cases hveq : v = nb.1
            · exact absurd (hveq ▸ hvs) hv
            · rw [lookupA_setAssoc_ne _ _ _ _ (fun h => hveq h.symm)] at hpv
              exact hinv.prev_order v u' hpv hvs
          · -- visited_nodup
            dsimp only
            exact hinv.visited_nodup
          · -- dist_reach
            dsimp only
            intro v dv hdv
            by_cases hveq : v = nb.1
            · subst hveq
              exact Reach.step (hinv.dist_reach u d hd) hnb hbl
            · rw [lookupA_setAssoc_ne _ _ _ _ (fun h => hveq h.symm)] at hdv
              exact hinv.dist_reach v dv hdv
        · refine ⟨?_, ?_, ?_, ?_⟩
          · -- distances only decrease
            dsimp only
            intro v dv hdv
            by_cases hveq : v = nb.1
            · subst hveq
              refine ⟨d + nb.2, lookupA_setAssoc_self _ _ _, ?_⟩
              unfold distOf at hlt
              rw [hdv] at hlt
              exact le_of_lt (WithTop.coe_lt_coe.mp hlt)
            · exact ⟨dv, by rw [lookupA_setAssoc_ne _ _ _ _ (fun h => hveq h.symm)]; exact hdv,
                le_refl dv⟩
          · -- visited distances frozen
            dsimp only
            intro x hx
            have hxne : x ≠ nb.1 := fun h => hv (h ▸ hx)
            rw [lookupA_setAssoc_ne _ _ _ _ (fun h => hxne h.symm)]
          · -- the target now has a finite distance
            dsimp only
            intro _
            rw [lookupA_setAssoc_self]
            simp
          · -- queue growth
            dsimp only
            simp
      · rw [if_neg hlt]
        refine ⟨hinv, fun v dv h => ⟨dv, h, le_refl dv⟩, fun x _ => rfl, fun _ => ?_,
          Nat.le_succ _⟩
        cases hn : lookupA st.dist nb.1 with
        | none =>
          exfalso
          unfold distOf at hlt
          rw [hn] at hlt
          exact hlt (WithTop.coe_lt_top _)
        | some dv => simp

/-- Folding `relax` over a neighbour list preserves the invariant, only
decreases distances, freezes visited nodes, gives every non-blocked relaxed
target a finite distance, and grows the queue by at most the list length. -/
theorem relaxAll_spec (g : Graph) (blocked : List (String × String)) (start u : String)
    (d : ℚ) (visited' : List String) (st : DState) (nbs : List (String × ℚ))
    (hinv : DInv g blocked start visited' st)
    (hu : u ∈ visited')
    (hd : lookupA st.dist u = some d)
    (hnbs : ∀ nb ∈ nbs, AdjEdge g u nb.1 nb.2)
    (hw : ∀ nb ∈ nbs, 0 ≤ nb.2) :
    DInv g blocked start visited' (relaxAll blocked u d visited' st nbs) ∧
    (∀ v dv, lookupA st.dist v = some dv →
       ∃ dv', lookupA (relaxAll blocked u d visited' st nbs).dist v = some dv' ∧ dv' ≤ dv) ∧
    (∀ x ∈ visited', lookupA (relaxAll blocked u d visited' st nbs).dist x =
       lookupA st.dist x) ∧
    (∀ nb ∈ nbs, (u, nb.1) ∉ blocked →
       lookupA (relaxAll blocked u d visited' st nbs).dist nb.1 ≠ none) ∧
    (relaxAll blocked u d visited' st nbs).pq.length ≤ st.pq.length + nbs.length := by
  induction nbs generalizing st with
  | nil =>
    exact ⟨hinv, fun v dv h => ⟨dv, h, le_refl dv⟩, fun x _ => rfl, by simp, by simp [relaxAll]⟩
  | cons nb nbs' ih =>
    have hstep := relax_spec g blocked start u d visited' st nb hinv hu hd
      (hnbs nb (List.mem_cons_self _ _)) (hw nb (List.mem_cons_self _ _))
    obtain ⟨hinv₁, hmono₁, hfrozen₁, hclose₁, hpq₁⟩ := hstep
    have hd₁ : lookupA (relax blocked u d visited' st nb).dist u = some d := by
      rw [hfrozen₁ u hu]; exact hd
    have hrest := ih (relax blocked u d visited' st nb) hinv₁ hd₁
      (fun x hx => hnbs x (List.mem_cons_of_mem _ hx))
      (fun x hx => hw x (List.mem_cons_of_mem _ hx))
    obtain ⟨hinv₂, hmono₂, hfrozen₂, hclose₂, hpq₂⟩ := hrest
    have hfold : relaxAll blocked u d visited' st (nb :: nbs') =
        relaxAll blocked u d visited' (relax blocked u d visited' st nb) nbs' := rfl
    rw [hfold]
    refine ⟨hinv₂, ?_, ?_, ?_, ?_⟩
    · intro v dv hdv
      obtain ⟨dv₁, h₁, hle₁⟩ := hmono₁ v dv hdv
      obtain ⟨dv₂, h₂, hle₂⟩ := hmono₂ v dv₁ h₁
      exact ⟨dv₂, h₂, le_trans hle₂ hle₁⟩
    · intro x hx
      rw [hfrozen₂ x hx, hfrozen₁ x hx]
    · intro x hx hbx
      rcases List.mem_cons.mp hx with h | h
      · subst h
        cases h₁ : lookupA (relax blocked u d visited' st x).dist x.1 with
        | none => exact absurd h₁ (hclose₁ hbx)
        | some dv =>
          obtain ⟨dv₂, h₂, _⟩ := hmono₂ x.1 dv h₁
          rw [h₂]
          simp
      · exact hclose₂ x h hbx
    · calc (relaxAll blocked u d visited' (relax blocked u d visited' st nb) nbs').pq.length
          ≤ (relax blocked u d visited' st nb).pq.length + nbs'.length := hpq₂
        _ ≤ st.pq.length + 1 + nbs'.length := by omega
        _ = st.pq.length + (nb :: nbs').length := by simp [List.length_cons]; omega

/-! ### The heap order is a strict weak order -/

theorem strLtB_asym (a b : List Char) : strLtB a b = true → strLtB b a = false := by
  induction a generalizing b with
  | nil =>
    intro h
    cases b with
    | nil => simp [strLtB] at h
    | cons c cs => simp [strLtB]
  | cons c cs ih =>
    intro h
    cases b with
    | nil => simp [strLtB] at h
    | cons d ds =>
      simp only [strLtB] at h ⊢
      by_cases h1 : c.toNat < d.toNat
      · rw [if_neg (by omega), if_neg (by omega)]
      · rw [if_neg h1] at h
        by_cases h2 : c.toNat = d.toNat
        · rw [if_pos h2] at h
          rw [if_neg (by omega), if_pos (by omega)]
          exact ih ds h
        · rw [if_neg h2] at h
          cases h

theorem strLtB_trans (a b c : List Char) :
    strLtB a b = true → strLtB b c = true → strLtB a c = true := by
  induction a generalizing b c with
  | nil =>
    intro h1 h2
    cases b with
    | nil => simp [strLtB] at h1
    | cons x xs =>
      cases c with
      | nil => simp [strLtB] at h2
      | cons y ys => simp [strLtB]
  | cons x xs ih =>
    intro h1 h2
    cases b with
    | nil => simp [strLtB] at h1
    | cons y ys =>
      cases c with
      | nil => simp [strLtB] at h2
      | cons z zs =>
        simp only [strLtB] at h1 h2 ⊢
        by_cases hxy : x.toNat < y.toNat
        · by_cases hyz : y.toNat < z.toNat
          · rw [if_pos (by omega)]
          · rw [if_neg hyz] at h2
            by_cases hyz' : y.toNat = z.toNat
            · rw [if_pos (by omega)]
            · rw [if_neg hyz'] at h2; cases h2
        · rw [if_neg hxy] at h1
          by_cases hxy' : x.toNat = y.toNat
          · rw [if_pos hxy'] at h1
            by_cases hyz : y.toNat < z.toNat
            · rw [if_pos (by omega)]
            · rw [if_neg hyz] at h2
              by_cases hyz' : y.toNat = z.toNat
              · rw [if_pos hyz'] at h2
                rw [if_neg (by omega), if_pos (by omega)]
                exact ih ys zs h1 h2
              · rw [if_neg hyz'] at h2; cases h2
          · rw [if_neg hxy'] at h1; cases h1

theorem strLtB_eq_of_not (a b : List Char) :
    strLtB a b = false → strLtB b a = false → a = b := by
  induction a generalizing b with
  | nil =>
    intro h1 _
    cases b with
    | nil => rfl
    | cons c cs => simp [strLtB] at h1
  | cons c cs ih =>
    intro h1 h2
    cases b with
    | nil => simp [strLtB] at h2
    | cons d ds =>
      simp only [strLtB] at h1 h2
      by_cases hcd : c.toNat < d.toNat
      · rw [if_pos hcd] at h1; cases h1
      · by_cases hdc : d.toNat < c.toNat
        · rw [if_pos hdc] at h2; cases h2
        · have he : c.toNat = d.toNat := by omega
          rw [if_neg hcd, if_pos he] at h1
          rw [if_neg hdc, if_pos (he.symm)] at h2
          have : c = d := Char.ext (UInt32.toNat.inj he)
          rw [this, ih ds h1 h2]

theorem ltQS_asym (a b : ℚ × String) : ltQS a b = true → ltQS b a = false := by
  unfold ltQS
  by_cases h1 : a.1 < b.1
  · intro _
    rw [if_neg (by exact not_lt.mpr (le_of_lt h1)), if_neg (by exact ne_of_gt h1)]
  · rw [if_neg h1]
    by_cases h2 : a.1 = b.1
    · rw [if_pos h2]
      intro h
      rw [if_neg (by rw [h2]; exact lt_irrefl _), if_pos h2.symm]
      exact strLtB_asym _ _ h
    · rw [if_neg h2]
      intro h
      cases h

theorem ltQS_true_iff (a b : ℚ × String) :
    ltQS a b = true ↔ (a.1 < b.1 ∨ (a.1 = b.1 ∧ strLtB a.2.data b.2.data = true)) := by
  unfold ltQS
  split_ifs with h1 h2
  · simp [h1]
  · simp [h1, h2]
  · simp [h1, h2]

theorem ltQS_trans (a b c : ℚ × String) :
    ltQS a b = true → ltQS b c = true → ltQS a c = true := by
  intro h1 h2
  rw [ltQS_true_iff] at h1 h2 ⊢
  rcases h1 with h1 | ⟨h1e, h1s⟩
  · rcases h2 with h2 | ⟨h2e, _⟩
    · exact Or.inl (lt_trans h1 h2)
    · exact Or.inl (h2e ▸ h1)
  · rcases h2 with h2 | ⟨h2e, h2s⟩
    · exact Or.inl (h1e ▸ h2)
    · exact Or.inr ⟨h1e.trans h2e, strLtB_trans _ _ _ h1s h2s⟩

theorem ltQS_total (a b : ℚ × String) :
    ltQS a b = false → ltQS b a = false → ∀ c, ltQS a c = ltQS b c := by
  intro h1 h2 c
  unfold ltQS at h1 h2 ⊢
  by_cases hab : a.1 < b.1
  · rw [if_pos hab] at h1; cases h1
  · by_cases hba : b.1 < a.1
    · rw [if_pos hba] at h2; cases h2
    · have he : a.1 = b.1 := le_antisymm (not_lt.mp hba) (not_lt.mp hab)
      rw [if_neg hab, if_pos he] at h1
      rw [if_neg hba, if_pos he.symm] at h2
      have hs : a.2.data = b.2.data := strLtB_eq_of_not _ _ h1 h2
      rw [he, hs]

theorem popMinBy_min {α : Type _} [DecidableEq α] (lt : α → α → Bool)
    (hasym : ∀ a b, lt a b = true → lt b a = false)
    (htrans : ∀ a b c, lt a b = true → lt b c = true → lt a c = true)
    (htotal : ∀ a b, lt a b = false → lt b a = false → ∀ c, lt a c = lt b c)
    (l : List α) (m : α) (rest : List α) (h : popMinBy lt l = some (m, rest)) :
    ∀ x ∈ l, lt x m = false := by
  unfold popMinBy at h
  cases hmin : minBy lt l with
  | none => rw [hmin] at h; cases h
  | some m' =>
    rw [hmin] at h
    simp only [Option.some.injEq, Prod.mk.injEq] at h
    exact h.1 ▸ minBy_min lt hasym htrans htotal l m' hmin

/-- The key popped for a not-yet-visited node is exactly its current
tentative distance. -/
theorem pop_exact (g : Graph) (blocked : List (String × String)) (start : String)
    (visited : List String) (st : DState)
    (hinv : DInv g blocked start visited st) (d : ℚ) (u : String)
    (pq' : List (ℚ × String)) (hpop : popMinBy ltQS st.pq = some ((d, u), pq'))
    (hu : u ∉ visited) : lookupA st.dist u = some d := by
  obtain ⟨hmem, _⟩ := popMinBy_spec ltQS st.pq (d, u) pq' hpop
  obtain ⟨_, du, hdu, hle⟩ := hinv.pq_bound (d, u) hmem
  have hex : (du, u) ∈ st.pq := hinv.pq_exact u du hdu hu
  have hmin := popMinBy_min ltQS ltQS_asym ltQS_trans ltQS_total st.pq (d, u) pq' hpop
    (du, u) hex
  have hnlt : ¬ du < d := by
    intro hdu'
    have := (ltQS_true_iff (du, u) (d, u)).mpr (Or.inl hdu')
    rw [hmin] at this
    cases this
  have hed : du = d := le_antisymm hle (not_lt.mp hnlt)
  rw [← hed]
  exact hdu

/-- Popping an already-visited entry preserves the invariant. -/
theorem DInv_pop_skip (g : Graph) (blocked : List (String × String)) (start : String)
    (visited : List String) (st : DState)
    (hinv : DInv g blocked start visited st) (d : ℚ) (u : String)
    (pq' : List (ℚ × String)) (hpop : popMinBy ltQS st.pq = some ((d, u), pq'))
    (hu : u ∈ visited) :
    DInv g blocked start visited { st with pq := pq' } := by
  obtain ⟨hmem, hrest⟩ := popMinBy_spec ltQS st.pq (d, u) pq' hpop
  refine ⟨hinv.dist_start, hinv.prev_start, hinv.prev_cons, hinv.dist_prev,
    hinv.dist_nonneg, ?_, ?_, hinv.visited_dist, hinv.prev_order, hinv.visited_nodup,
    hinv.dist_reach⟩
  · intro e he
    exact hinv.pq_bound e (eraseFirst_subset st.pq (d, u) (hrest ▸ he))
  · intro v dv hdv hvs
    have hne : (dv, v) ≠ (d, u) := by
      intro h
      have h2 : v = u := congrArg Prod.snd h
      exact hvs (h2 ▸ hu)
    rw [hrest]
    exact mem_eraseFirst_of_ne st.pq (d, u) (dv, v) hne (hinv.pq_exact v dv hdv hvs)

/-- Marking a freshly popped node visited (before its relaxation) preserves
the invariant. -/
theorem DInv_visit_base (g : Graph) (blocked : List (String × String)) (start : String)
    (visited : List String) (st : DState)
    (hinv : DInv g blocked start visited st) (d : ℚ) (u : String)
    (pq' : List (ℚ × String)) (hpop : popMinBy ltQS st.pq = some ((d, u), pq'))
    (hu : u ∉ visited) :
    DInv g blocked start (u :: visited) { st with pq := pq' } := by
  obtain ⟨hmem, hrest⟩ := popMinBy_spec ltQS st.pq (d, u) pq' hpop
  obtain ⟨hd0, du, hdu, hle⟩ := hinv.pq_bound (d, u) hmem
  refine ⟨hinv.dist_start, hinv.prev_start, ?_, hinv.dist_prev, hinv.dist_nonneg,
    ?_, ?_, ?_, ?_, ?_, hinv.dist_reach⟩
  · intro v u' hpv
    obtain ⟨h1, h2, w, dw, h3, h4, h5⟩ := hinv.prev_cons v u' hpv
    exact ⟨h1, List.mem_cons_of_mem u h2, w, dw, h3, h4, h5⟩
  · intro e he
    exact hinv.pq_bound e (eraseFirst_subset st.pq (d, u) (hrest ▸ he))
  · intro v dv hdv hvs
    have hvu : v ≠ u := fun h => hvs (h ▸ List.mem_cons_self u visited)
    have hvs' : v ∉ visited := fun h => hvs (List.mem_cons_of_mem u h)
    have hne : (dv, v) ≠ (d, u) := by
      intro h
      exact hvu (congrArg Prod.snd h)
    rw [hrest]
    exact mem_eraseFirst_of_ne st.pq (d, u) (dv, v) hne (hinv.pq_exact v dv hdv hvs')
  · intro x hx
    rcases List.mem_cons.mp hx with h | h
    · exact h ▸ ⟨du, hdu⟩
    · exact hinv.visited_dist x h
  · intro v u' hpv hvs
    rcases List.mem_cons.mp hvs with h | h
    · subst h
      obtain ⟨_, h2, _⟩ := hinv.prev_cons v u' hpv
      rw [tailAfterFirst]
      rw [if_pos rfl]
      exact h2
    · have hvu : u ≠ v := fun he => hu (he ▸ h)
      rw [tailAfterFirst_cons_ne v u visited hvu]
      exact hinv.prev_order v u' hpv h
  · exact List.Nodup.cons hu hinv.visited_nodup

/-- Main loop lemma: with enough fuel (the loop pops one queue entry per
iteration and pushes at most the adjacency degree of each first-visited
node, so `pq.length + outW` bounds the remaining iterations), the loop ends
in an invariant-satisfying state, having either assigned `end` a finite
distance (early exit) or exhausted the queue with every visited node fully
relaxed. -/
theorem dloop_spec (g : Graph) (blocked : List (String × String)) (start endN : String)
    (hnn : g.NonnegW) :
    ∀ (fuel : Nat) (visited : List String) (st : DState),
    DInv g blocked start visited st →
    Closed g blocked visited st →
    st.pq.length + outW g visited ≤ fuel →
    ∃ visited' st', dloop g blocked endN fuel visited st = (st'.dist, st'.prev) ∧
      DInv g blocked start visited' st' ∧
      ((lookupA st'.dist endN ≠ none ∧ endN ∈ visited') ∨
       (st'.pq = [] ∧ Closed g blocked visited' st')) := by
  intro fuel
  induction fuel with
  | zero =>
    intro visited st hinv hcl hfuel
    exact ⟨visited, st, rfl, hinv, Or.inr ⟨List.length_eq_zero.mp (by omega), hcl⟩⟩
  | succ fuel ih =>
    intro visited st hinv hcl hfuel
    cases hpop : popMinBy ltQS st.pq with
    | none =>
      refine ⟨visited, st, ?_, hinv, Or.inr ⟨popMinBy_none _ _ hpop, hcl⟩⟩
      simp [dloop, hpop]
    | some pr =>
      obtain ⟨⟨d, u⟩, pq'⟩ := pr
      obtain ⟨hmem, hrest⟩ := popMinBy_spec ltQS st.pq (d, u) pq' hpop
      have hlen : pq'.length + 1 = st.pq.length := by
        rw [hrest]
        exact eraseFirst_length st.pq (d, u) hmem
      by_cases hu : u ∈ visited
      · -- already visited: skip
        have hinv' := DInv_pop_skip g blocked start visited st hinv d u pq' hpop hu
        have hcl' : Closed g blocked visited { st with pq := pq' } := hcl
        obtain ⟨v', s', heq, hi, hex⟩ := ih visited { st with pq := pq' } hinv' hcl'
          (by simpa using by omega)
        refine ⟨v', s', ?_, hi, hex⟩
        rw [← heq]
        simp [dloop, hpop, hu]
      · by_cases hend : u = endN
        · -- reached the target: break
          subst hend
          obtain ⟨_, du, hdu, _⟩ := hinv.pq_bound (d, u) hmem
          refine ⟨u :: visited, { st with pq := pq' },
            ?_, DInv_visit_base g blocked start visited st hinv d u pq' hpop hu,
            Or.inl ⟨by rw [hdu]; simp, List.mem_cons_self u visited⟩⟩
          simp [dloop, hpop, hu]
        · -- first visit: relax all outgoing edges and recurse
          have hinvb := DInv_visit_base g blocked start visited st hinv d u pq' hpop hu
          have hd : lookupA st.dist u = some d :=
            pop_exact g blocked start visited st hinv d u pq' hpop hu
          have hra := relaxAll_spec g blocked start u d (u :: visited)
            { st with pq := pq' } (g.nbrs u) hinvb (List.mem_cons_self u visited) hd
            (fun nb hnb => hnb) (nonneg_nbrs g hnn u)
          obtain ⟨hinv₂, hmono₂, _, hclose₂, hpq₂⟩ := hra
          have hcl₂ : Closed g blocked (u :: visited)
              (relaxAll blocked u d (u :: visited) { st with pq := pq' } (g.nbrs u)) := by
            intro x hx nb hnb hbl
            rcases List.mem_cons.mp hx with h | h
            · subst h
              exact hclose₂ nb hnb hbl
            · cases hdn : lookupA st.dist nb.1 with
              | none => exact absurd hdn (hcl x h nb hnb hbl)
              | some dv =>
                obtain ⟨dv₂, h₂, _⟩ := hmono₂ nb.1 dv hdn
                rw [h₂]
                simp
          have hfuel₂ : (relaxAll blocked u d (u :: visited) { st with pq := pq' }
              (g.nbrs u)).pq.length + outW g (u :: visited) ≤ fuel := by
            have how := outW_cons g u visited hu
            have : ({ st with pq := pq' } : DState).pq.length = pq'.length := rfl
            omega
          obtain ⟨v', s', heq, hi, hex⟩ := ih (u :: visited)
            (relaxAll blocked u d (u :: visited) { st with pq := pq' } (g.nbrs u))
            hinv₂ hcl₂ hfuel₂
          refine ⟨v', s', ?_, hi, hex⟩
          rw [← heq]
          simp [dloop, hpop, hu, hend]

/-- With the queue exhausted, every node with a finite tentative distance has
been visited. -/
theorem dist_some_visited (g : Graph) (blocked : List (String × String))
    (start : String) (visited : List String) (st : DState)
    (hinv : DInv g blocked start visited st) (hpq : st.pq = [])
    (v : String) (dv : ℚ) (hdv : lookupA st.dist v = some dv) : v ∈ visited := by
  by_contra hv
  have := hinv.pq_exact v dv hdv hv
  rw [hpq] at this
  simp at this

/-- With the queue exhausted and all visited nodes relaxed, every reachable
node has a finite distance. -/
theorem reach_dist (g : Graph) (blocked : List (String × String)) (start : String)
    (visited : List String) (st : DState)
    (hinv : DInv g blocked start visited st) (hpq : st.pq = [])
    (hcl : Closed g blocked visited st) :
    ∀ v, Reach g blocked start v → lookupA st.dist v ≠ none := by
  intro v hr
  induction hr with
  | refl =>
    rw [hinv.dist_start]
    simp
  | @step b c w _ hedge hbl ih =>
    cases hb : lookupA st.dist b with
    | none => exact absurd hb ih
    | some db =>
      have hbv : b ∈ visited := dist_some_visited g blocked start visited st hinv hpq b db hb
      exact hcl b hbv (c, w) hedge hbl

theorem adjEdge_weight (g : Graph) (hwf : g.WF) (u v : String) (w : ℚ)
    (h : AdjEdge g u v w) : g.get_edge_weight u v = some w := by
  unfold AdjEdge Graph.nbrs at h
  cases hl : lookupA g.adj u with
  | none => rw [hl] at h; simp at h
  | some bucket =>
    rw [hl] at h
    simp only [Option.getD_some] at h
    exact hwf.2.2.2.2.1 (u, bucket) (lookupA_some_mem _ _ _ hl) (v, w) h

theorem lookupA_ne_none_mem_keys {κ β : Type _} [DecidableEq κ] (l : List (κ × β)) (k : κ)
    (h : lookupA l k ≠ none) : k ∈ l.map Prod.fst := by
  by_contra hk
  exact h ((lookupA_eq_none_iff_keys l k).mpr hk)

/-- The visit list is no longer than `prev` plus the start node. -/
theorem visited_card_le (g : Graph) (blocked : List (String × String)) (start : String)
    (visited : List String) (st : DState)
    (hinv : DInv g blocked start visited st) :
    visited.length ≤ st.prev.length + 1 := by
  have hsub : visited ⊆ start :: st.prev.map Prod.fst := by
    intro v hv
    by_cases hvs : v = start
    · exact hvs ▸ List.mem_cons_self _ _
    · obtain ⟨dv, hdv⟩ := hinv.visited_dist v hv
      exact List.mem_cons_of_mem _
        (lookupA_ne_none_mem_keys st.prev v (hinv.dist_prev v dv hdv hvs))
  have := (hinv.visited_nodup.subperm hsub).length_le
  simpa using this

/-- Reconstruction: starting from a visited non-start node, `rebuild` returns
`start :: … :: cur`, linked consecutively by the `prev` map. -/
theorem rebuild_spec (g : Graph) (blocked : List (String × String)) (start : String)
    (visited : List String) (st : DState)
    (hinv : DInv g blocked start visited st) :
    ∀ (n : Nat) (cur : String), (tailAfterFirst cur visited).length ≤ n →
    cur ∈ visited → cur ≠ start →
    ∀ (fuel : Nat), n < fuel → ∀ (acc : List String),
    ∃ mid, rebuild st.prev start fuel cur acc = some (start :: (mid ++ cur :: acc)) ∧
      List.Chain' (fun a b => lookupA st.prev b = some a) (start :: (mid ++ [cur])) := by
  intro n
  induction n with
  | zero =>
    intro cur hlen hcur hcs fuel hfuel acc
    obtain ⟨dc, hdc⟩ := hinv.visited_dist cur hcur
    cases hp : lookupA st.prev cur with
    | none => exact absurd hp (hinv.dist_prev cur dc hdc hcs)
    | some u =>
      by_cases hus : u = start
      · subst hus
        obtain ⟨f, rfl⟩ : ∃ f, fuel = f + 1 := ⟨fuel - 1, by omega⟩
        refine ⟨[], ?_, ?_⟩
        · simp [rebuild, hp]
        · simp only [List.nil_append]
          exact List.chain'_pair.mpr hp
      · exfalso
        have hor := hinv.prev_order cur u hp hcur
        have := tailAfterFirst_descent cur u visited hinv.visited_nodup hor
        omega
  | succ n ih =>
    intro cur hlen hcur hcs fuel hfuel acc
    obtain ⟨dc, hdc⟩ := hinv.visited_dist cur hcur
    cases hp : lookupA st.prev cur with
    | none => exact absurd hp (hinv.dist_prev cur dc hdc hcs)
    | some u =>
      by_cases hus : u = start
      · subst hus
        obtain ⟨f, rfl⟩ : ∃ f, fuel = f + 1 := ⟨fuel - 1, by omega⟩
        refine ⟨[], ?_, ?_⟩
        · simp [rebuild, hp]
        · simp only [List.nil_append]
          exact List.chain'_pair.mpr hp
      · obtain ⟨hcs', huv, _, _, _, _, _⟩ := hinv.prev_cons cur u hp
        have hor := hinv.prev_order cur u hp hcur
        have hdesc := tailAfterFirst_descent cur u visited hinv.visited_nodup hor
        obtain ⟨f, rfl⟩ : ∃ f, fuel = f + 1 := ⟨fuel - 1, by omega⟩
        obtain ⟨mid', heq, hch⟩ := ih u (by omega) huv hus f (by omega) (cur :: acc)
        refine ⟨mid' ++ [u], ?_, ?_⟩
        · simp only [rebuild, hp]
          rw [if_neg hus, heq]
          simp
        · have hres : start :: (mid' ++ [u] ++ [cur]) =
              (start :: (mid' ++ [u])) ++ [cur] := by simp
          rw [hres]
          refine List.Chain'.append hch (List.chain'_singleton cur) ?_
          intro x hx y hy
          rw [Option.mem_def] at hx hy
          have hlast : (start :: (mid' ++ [u])).getLast? = some u := by
            rw [show start :: (mid' ++ [u]) = (start :: mid') ++ [u] from by simp,
              List.getLast?_concat]
          rw [hlast] at hx
          simp only [List.head?_cons, Option.some.injEq] at hx hy
          rw [← hx, ← hy]
          exact hp

/-- Telescoping: along a `prev`-linked chain the edge weights sum to the
difference of the tentative distances of the endpoints. -/
theorem chain_cost (g : Graph) (hwf : g.WF) (blocked : List (String × String))
    (start : String) (visited : List String) (st : DState)
    (hinv : DInv g blocked start visited st) :
    ∀ (l : List String) (a : String) (da : ℚ),
    List.Chain' (fun x y => lookupA st.prev y = some x) (a :: l) →
    lookupA st.dist a = some da →
    ∃ db, lookupA st.dist ((a :: l).getLast (List.cons_ne_nil a l)) = some db ∧
      pathCostAux g (a :: l) = ((db - da : ℚ) : WithTop ℚ) := by
  intro l
  induction l with
  | nil =>
    intro a da _ hda
    refine ⟨da, ?_, ?_⟩
    · simpa using hda
    · simp [pathCostAux]
  | cons v l' ih =>
    intro a da hch hda
    have hrel : lookupA st.prev v = some a := (List.chain'_cons.mp hch).1
    have hch' : List.Chain' (fun x y => lookupA st.prev y = some x) (v :: l') :=
      (List.chain'_cons.mp hch).2
    obtain ⟨_, _, w, du, hedge, hdu, hdv⟩ := hinv.prev_cons v a hrel
    have hdu' : du = da := Option.some.inj (hdu.symm.trans hda)
    subst hdu'
    obtain ⟨db, hlast, hcost⟩ := ih v (du + w) hch' hdv
    refine ⟨db, ?_, ?_⟩
    · rw [List.getLast_cons (List.cons_ne_nil v l')]
      exact hlast
    · have hew : g.get_edge_weight a v = some w := adjEdge_weight g hwf a v w hedge
      show (match g.get_edge_weight a v with
        | none => (⊤ : WithTop ℚ)
        | some w => (w : WithTop ℚ)) + pathCostAux g (v :: l') = _
      rw [hew, hcost]
      rw [← WithTop.coe_add]
      congr 1
      ring

theorem DInv_init (g : Graph) (blocked : List (String × String)) (start : String) :
    DInv g blocked start [] ⟨[(start, 0)], [], [(0, start)]⟩ := by
  refine ⟨by simp [lookupA], rfl, ?_, ?_, ?_, ?_, ?_, ?_, ?_, List.nodup_nil, ?_⟩
  · intro v u h
    simp [lookupA] at h
  · intro v dv hdv hvs
    simp only [lookupA] at hdv
    by_cases h : start = v
    · exact absurd h.symm hvs
    · rw [if_neg h] at hdv
      cases hdv
  · intro v dv hdv
    simp only [lookupA] at hdv
    by_cases h : start = v
    · rw [if_pos h] at hdv
      obtain rfl : (0 : ℚ) = dv := Option.some.inj hdv
      exact le_refl 0
    · rw [if_neg h] at hdv
      cases hdv
  · intro e he
    simp only [List.mem_singleton] at he
    subst he
    exact ⟨le_refl 0, 0, by simp [lookupA], le_refl 0⟩
  · intro v dv hdv _
    simp only [lookupA] at hdv
    by_cases h : start = v
    · subst h
      rw [if_pos rfl] at hdv
      obtain rfl : (0 : ℚ) = dv := Option.some.inj hdv
      simp
    · rw [if_neg h] at hdv
      cases hdv
  · intro u hu
    simp at hu
  · intro v u h _
    simp [lookupA] at h
  · intro v dv hdv
    simp only [lookupA] at hdv
    by_cases h : start = v
    · exact h ▸ Reach.refl start
    · rw [if_neg h] at hdv
      cases hdv

theorem outW_nil (g : Graph) : outW g [] = totalAdj g := by
  unfold outW totalAdj
  congr 1
  congr 1
  exact List.filter_eq_self.mpr (fun a _ => by simp)

/-- Running the loop from the initial state of `dijkstraCore`. -/
theorem dloop_final (g : Graph) (blocked : List (String × String)) (start endN : String)
    (hnn : g.NonnegW) :
    ∃ visited' st',
      dloop g blocked endN (totalAdj g + 2) [] ⟨[(start, 0)], [], [(0, start)]⟩ =
        (st'.dist, st'.prev) ∧
      DInv g blocked start visited' st' ∧
      ((lookupA st'.dist endN ≠ none ∧ endN ∈ visited') ∨
       (st'.pq = [] ∧ Closed g blocked visited' st')) := by
  refine dloop_spec g blocked start endN hnn (totalAdj g + 2) []
    ⟨[(start, 0)], [], [(0, start)]⟩ (DInv_init g blocked start) ?_ ?_
  · intro u hu
    simp at hu
  · simp only [outW_nil]
    simp
    omega

/-- The `dijkstraCore` return for a reachable target: a path from `start` to
`end` whose edge-weight sum is exactly the returned weight. -/
theorem dijkstraCore_some (g : Graph) (blocked : List (String × String))
    (start endN : String) (hwf : g.WF) (hnn : g.NonnegW)
    (hs : start ∈ g.nodes) (he : endN ∈ g.nodes) (hne : start ≠ endN)
    (hreach : Reach g blocked start endN) :
    ∃ p w, dijkstraCore g start endN blocked = some (p, w) ∧
      p.head? = some start ∧ p.getLast? = some endN ∧
      calculate_path_cost g p = ((w : ℚ) : WithTop ℚ) := by
  obtain ⟨v', s', heq, hi, hex⟩ := dloop_final g blocked start endN hnn
  have hkey : lookupA s'.dist endN ≠ none ∧ endN ∈ v' := by
    rcases hex with ⟨h1, h2⟩ | ⟨hpq, hcl⟩
    · exact ⟨h1, h2⟩
    · have h1 := reach_dist g blocked start v' s' hi hpq hcl endN hreach
      cases hlk : lookupA s'.dist endN with
      | none => exact absurd hlk h1
      | some dEnd =>
        exact ⟨by simp,
          dist_some_visited g blocked start v' s' hi hpq endN dEnd hlk⟩
  obtain ⟨dEnd, hdEnd⟩ : ∃ d, lookupA s'.dist endN = some d := by
    cases hlk : lookupA s'.dist endN with
    | none => exact absurd hlk hkey.1
    | some d => exact ⟨d, rfl⟩
  obtain ⟨u₀, hu₀⟩ : ∃ u₀, lookupA s'.prev endN = some u₀ := by
    cases hlk : lookupA s'.prev endN with
    | none => exact absurd hlk (hi.dist_prev endN dEnd hdEnd (Ne.symm hne))
    | some u₀ => exact ⟨u₀, rfl⟩
  have hn : (tailAfterFirst endN v').length < s'.prev.length + 1 := by
    have h1 := tailAfterFirst_length_lt endN v' hkey.2
    have h2 := visited_card_le g blocked start v' s' hi
    omega
  obtain ⟨mid, hre, hch⟩ := rebuild_spec g blocked start v' s' hi
    (tailAfterFirst endN v').length endN (le_refl _) hkey.2 (Ne.symm hne)
    (s'.prev.length + 1) hn []
  obtain ⟨db, hlast, hcost⟩ := chain_cost g hwf blocked start v' s' hi (mid ++ [endN])
    start 0 hch hi.dist_start
  have hglast : (start :: (mid ++ [endN])).getLast (List.cons_ne_nil _ _) = endN := by
    have h1 : (start :: (mid ++ [endN])).getLast? = some endN := by
      rw [show start :: (mid ++ [endN]) = (start :: mid) ++ [endN] from by simp,
        List.getLast?_concat]
    have h2 := List.getLast?_eq_getLast (start :: (mid ++ [endN])) (List.cons_ne_nil _ _)
    rw [h1] at h2
    exact (Option.some.inj h2).symm
  rw [hglast] at hlast
  have hdb : db = dEnd := Option.some.inj (hlast.symm.trans hdEnd)
  subst hdb
  refine ⟨start :: (mid ++ [endN]), db, ?_, rfl, ?_, ?_⟩
  · unfold dijkstraCore
    rw [if_neg (by push_neg; exact ⟨hs, he⟩), if_neg hne]
    simp only [heq, hu₀, hre, hdEnd, List.head?_cons]
    simp
  · rw [show start :: (mid ++ [endN]) = (start :: mid) ++ [endN] from by simp,
      List.getLast?_concat]
  · unfold calculate_path_cost
    rw [if_neg (by simp)]
    rw [hcost]
    simp

/-- `dijkstraCore` returns the `(None, inf)` sentinel when the target is not
reachable. -/
theorem dijkstraCore_none (g : Graph) (blocked : List (String × String))
    (start endN : String) (hnn : g.NonnegW) (hne : start ≠ endN)
    (hunreach : ¬ Reach g blocked start endN) :
    dijkstraCore g start endN blocked = none := by
  unfold dijkstraCore
  by_cases habs : start ∉ g.nodes ∨ endN ∉ g.nodes
  · rw [if_pos habs]
  · rw [if_neg habs, if_neg hne]
    obtain ⟨v', s', heq, hi, _⟩ := dloop_final g blocked start endN hnn
    have hprev : lookupA s'.prev endN = none := by
      cases hlk : lookupA s'.prev endN with
      | none => rfl
      | some u₀ =>
        obtain ⟨_, _, w, du, _, _, hdv⟩ := hi.prev_cons endN u₀ hlk
        exact absurd (hi.dist_reach endN (du + w) hdv) hunreach
    simp only [heq, hprev]

/-- C3: the `Dijkstra.shortest_path` contract.  `(None, float('inf'))` is
modelled as `none`.  With `start` or `end` absent from the node set the
sentinel is returned; with `start ∈ nodes` the degenerate query
`start = end` returns `([start], 0)` before any traversal, for every
adjacency structure; an unreachable target yields the sentinel; and a
reachable one yields a path that starts at `start`, ends at `end`, and is
returned together with its total edge-weight sum. -/
theorem shortest_path_contract (g : Graph) (start endN : String)
    (hwf : g.WF) (hnn : g.NonnegW) :
    ((start ∉ g.nodes ∨ endN ∉ g.nodes) → shortest_path g start endN = none) ∧
    (start ∈ g.nodes → start = endN → shortest_path g start endN = some ([start], 0)) ∧
    (start ∈ g.nodes → endN ∈ g.nodes → ¬ Reach g [] start endN →
      shortest_path g start endN = none) ∧
    (start ∈ g.nodes → endN ∈ g.nodes → Reach g [] start endN →
      ∃ p w, shortest_path g start endN = some (p, w) ∧
        p.head? = some start ∧ p.getLast? = some endN ∧
        calculate_path_cost g p = ((w : ℚ) : WithTop ℚ)) := by
  refine ⟨?_, ?_, ?_, ?_⟩
  · intro habs
    unfold shortest_path dijkstraCore
    rw [if_pos habs]
  · intro hsm heq
    subst heq
    unfold shortest_path dijkstraCore
    rw [if_neg (by push_neg; exact ⟨hsm, hsm⟩), if_pos rfl]
  · intro hsm hem hunreach
    by_cases hne : start = endN
    · exact absurd (hne ▸ Reach.refl start) hunreach
    · exact dijkstraCore_none g [] start endN hnn hne hunreach
  · intro hsm hem hreach
    by_cases hne : start = endN
    · subst hne
      refine ⟨[start], 0, ?_, rfl, rfl, by simp [calculate_path_cost]⟩
      unfold shortest_path dijkstraCore
      rw [if_neg (by push_neg; exact ⟨hsm, hsm⟩), if_pos rfl]
    · exact dijkstraCore_some g [] start endN hwf hnn hsm hem hne hreach

theorem shortest_path_contract_witness :
    ∃ p w, shortest_path gYen "s" "t" = some (p, w) ∧
      p.head? = some "s" ∧ p.getLast? = some "t" ∧
      calculate_path_cost gYen p = ((w : ℚ) : WithTop ℚ) :=
  (shortest_path_contract gYen "s" "t" (by decide) (by decide)).2.2.2
    (by decide) (by decide)
    (Reach.step (Reach.step (Reach.refl "s") (show AdjEdge gYen "s" "a" 1 by decide)
        (by decide))
      (show AdjEdge gYen "a" "t" 1 by decide) (by decide))

/-! ## C4: emergency queries run plain Dijkstra -/

theorem set_path_isSome {α : Type _} (pc : PathCache α) (s e vt : String) (d : α)
    (now : ℚ) (hcap : 1 ≤ pc.max_size) :
    ∃ pc2, pc.set_path s e vt d now = some pc2 := by
  unfold PathCache.set_path
  by_cases hfull : pc.max_size ≤ pc.cache.length
  · rw [if_pos hfull]
    have hne : pc.cache ≠ [] := by
      intro h0
      rw [h0] at hfull
      simp at hfull
      omega
    obtain ⟨ok, _, hok, _, _⟩ := oldestKey_spec pc.cache hne
    rw [hok]
    exact ⟨_, rfl⟩
  · rw [if_neg hfull]
    exact ⟨_, rfl⟩

theorem get_path_max_size {α : Type _} (pc : PathCache α) (s e vt : String) (now : ℚ) :
    (pc.get_path s e vt now).2.max_size = pc.max_size := by
  cases hlk : lookupA pc.cache (make_key s e vt) with
  | none => simp [PathCache.get_path, hlk]
  | some item =>
    simp only [PathCache.get_path, hlk]
    by_cases h : now - item.cached_at < pc.ttl
    · rw [if_pos h]
    · rw [if_neg h]

/-- C4: on a cache miss, an emergency-class query returns exactly the path
and total weight that `Dijkstra.shortest_path` computes on the same graph
snapshot — none of the K-shortest-path / softmax / composite-score machinery
used for normal vehicles is applied. -/
theorem plan_route_emergency_refines_dijkstra
    (E : ℚ → ℚ) (fresh : Graph) (now : ℚ) (gc : GraphCache)
    (pc : PathCache RouteDict) (start endN : String)
    (hmiss : (pc.get_path start endN "emergency" now).1 = none)
    (hcap : 1 ≤ pc.max_size)
    (hwf : (gc.get_graph fresh now).1.WF) (hnn : (gc.get_graph fresh now).1.NonnegW)
    (hnodes : (gc.get_graph fresh now).1.nodes ≠ [])
    (hs : start ∈ (gc.get_graph fresh now).1.nodes)
    (he : endN ∈ (gc.get_graph fresh now).1.nodes)
    (hreach : Reach (gc.get_graph fresh now).1 [] start endN) :
    ∃ r gc' pc' p w,
      plan_route E fresh now gc pc start endN "emergency" = some (r, gc', pc') ∧
      shortest_path (gc.get_graph fresh now).1 start endN = some (p, w) ∧
      r.path = p ∧ r.weight = ((w : ℚ) : WithTop ℚ) := by
  by_cases heq : start = endN
  · subst heq
    have hsp : shortest_path (gc.get_graph fresh now).1 start start = some ([start], 0) := by
      unfold shortest_path dijkstraCore
      rw [if_neg (by push_neg; exact ⟨hs, hs⟩), if_pos rfl]
    have hcap' : 1 ≤ (pc.get_path start start "emergency" now).2.max_size := by
      rw [get_path_max_size]
      exact hcap
    obtain ⟨pc2, hset⟩ := set_path_isSome (pc.get_path start start "emergency" now).2
      start start "emergency"
      ⟨[start], 0, 0, 0, 0, "起始节点和目标节点相同", some false, none, none, none, none⟩
      now hcap'
    refine ⟨⟨[start], 0, 0, 0, 0, "起始节点和目标节点相同", some false, none, none, none,
      none⟩, (gc.get_graph fresh now).2, pc2, [start], 0, ?_, hsp, rfl, rfl⟩
    simp only [plan_route, hmiss]
    rw [if_neg hnodes, if_neg (by simpa using hs), if_neg (by simpa using hs),
      if_pos trivial, hset]
  · obtain ⟨p, w, hsp, _, _, _⟩ := dijkstraCore_some (gc.get_graph fresh now).1 []
      start endN hwf hnn hs he heq hreach
    refine ⟨⟨p, ((w : ℚ) : WithTop ℚ), (calc_path_details (gc.get_graph fresh now).1 p).1,
      (calc_path_details (gc.get_graph fresh now).1 p).2.1,
      (calc_path_details (gc.get_graph fresh now).1 p).2.2,
      "特殊车辆最短路径", none, some (now - now), none, none, none⟩,
      (gc.get_graph fresh now).2, (pc.get_path start endN "emergency" now).2, p, w, ?_, hsp,
      rfl, rfl⟩
    simp only [plan_route, hmiss]
    rw [if_neg hnodes, if_neg (by simpa using hs), if_neg (by simpa using he),
      if_neg heq, if_pos trivial]
    rw [show shortest_path (gc.get_graph fresh now).1 start endN =
      dijkstraCore (gc.get_graph fresh now).1 start endN [] from rfl, hsp]

theorem plan_route_emergency_refines_dijkstra_witness :
    ∃ r gc' pc' p w,
      plan_route (fun _ => 1) gYen 5 ⟨none, 0, 300, 0, 0⟩ ⟨[], 1000, 600, 0, 0⟩
        "a" "t" "emergency" = some (r, gc', pc') ∧
      shortest_path ((⟨none, 0, 300, 0, 0⟩ : GraphCache).get_graph gYen 5).1 "a" "t" =
        some (p, w) ∧
      r.path = p ∧ r.weight = ((w : ℚ) : WithTop ℚ) :=
  plan_route_emergency_refines_dijkstra (fun _ => 1) gYen 5 ⟨none, 0, 300, 0, 0⟩
    ⟨[], 1000, 600, 0, 0⟩ "a" "t" (by decide) (by decide) (by decide) (by decide)
    (by decide) (by decide) (by decide)
    (Reach.step (Reach.refl "a") (show AdjEdge gYen "a" "t" 1 by decide) (by decide))
